import Mathlib

/-!
Verification of the romaji-input matching engine of the pygame-typing game.

The definitions below are a shallow embedding of the Python classes
`KeyProcessor` / `Enemy` (src/classes/characters/enemy/enemy.py),
`Enemies` / `HiraTangoSelecter` (src/classes/characters/enemy/enemies.py).
Python strings are modelled as `List Char`; the `networkx` digraph of a word
is modelled as an adjacency association list whose keys are the node values
themselves (in `networkx`, nodes are identified by value, and tuples compare
structurally).  `nx.shortest_path` for an unweighted graph is modelled by a
fuel-bounded search returning a minimal-node-count path.
-/

set_option maxRecDepth 4000

/-- Python strings, as lists of characters. -/
abbrev Str := List Char

/-- A node of a word graph: either a start/end sentinel tuple such as
`('start', 0)` / `('end', -1)` (first component a Python string), or a romaji
node `((romaji, ...), pos)` (first component a tuple of romaji strings). -/
inductive PNode where
  | se (tag : Str) (k : Int)
  | tok (alts : List Str) (pos : Int)
deriving DecidableEq, Repr

/-- `KeyProcessor._start_node = ('start', 0)`. -/
def startNode : PNode := .se "start".toList 0

/-- `KeyProcessor._end_node = ('end', -1)`. -/
def endNode : PNode := .se "end".toList (-1)

/-- `node[0]` viewed as the iterable of romaji of the node.  For a romaji node
this is its tuple of alternatives; for a start/end tuple, Python iteration of
the string `node[0]` yields its characters as one-character strings. -/
def PNode.romajis : PNode → List Str
  | .se tag _ => tag.map (fun c => [c])
  | .tok alts _ => alts

/-- `node[0][0]`: the first romaji of a node (first character of the tag for a
start/end node).  Defaults to the empty string where Python would raise. -/
def PNode.firstRomaji : PNode → Str
  | .se tag _ => match tag with
    | [] => []
    | c :: _ => [c]
  | .tok alts _ => alts.headD []

/-- A word graph: adjacency list, keyed by node value (insertion order of
`networkx` edges is preserved in the successor lists). -/
structure Graph where
  adj : List (PNode × List PNode)
deriving DecidableEq, Repr

/-- `graph.successors(v)`. -/
def Graph.succs (g : Graph) (v : PNode) : List PNode :=
  match g.adj.find? (fun e => decide (e.1 = v)) with
  | some e => e.2
  | none => []

/-- Fuel bound large enough to cover every duplicate-free path of the graph. -/
def Graph.fuel (g : Graph) : Nat := g.adj.length + 1

/-- Keep the better (strictly shorter, ties to the earlier) of the candidate
paths produced for each element of the list; `none` candidates are skipped.
This is the accumulation pattern of `KeyProcessor._find_shortest_path`
(`if path_len < shortest_path_len`). -/
def pickBest (get : PNode → Option (List PNode)) : List PNode → Option (List PNode)
  | [] => none
  | x :: xs =>
    match get x, pickBest get xs with
    | none, r => r
    | some p, none => some p
    | some p, some q => if q.length < p.length then some q else some p

/-- Model of `nx.shortest_path(graph, src, tgt)` for the unweighted digraph:
a minimal-node-count path from `src` to `tgt`, found by fuel-bounded search;
`none` models the `NetworkXNoPath` exception (or fuel exhaustion, which
cannot happen for fuel `g.fuel` on the acyclic word graphs). -/
def nxShortestPath (g : Graph) : Nat → PNode → PNode → Option (List PNode)
  | 0, _, _ => none
  | f + 1, src, tgt =>
    if src = tgt then some [src]
    else pickBest (fun nxt => (nxShortestPath g f nxt tgt).map (src :: ·)) (g.succs src)

/-- State of one `KeyProcessor` (attribute names follow the source). -/
structure KPState where
  keys_for_now_node : Str
  confirmed_nodes_keys : Str
  now_nodes : List PNode
  assumed_keys : Str
  allow_n : Bool
  accepting_keys : List Char
deriving DecidableEq, Repr

/-- `KeyProcessor._find_shortest_path`: the minimal `nx.shortest_path` from a
current node to the end node, scanning `_now_nodes` in order and keeping the
first strictly shortest path. -/
def find_shortest_path (g : Graph) (nowNodes : List PNode) : Option (List PNode) :=
  pickBest (fun node => nxShortestPath g g.fuel node endNode) nowNodes

/-- Concatenation of `node[0][0]` over a list of nodes. -/
def firstRomajisJoin (p : List PNode) : Str := (p.map PNode.firstRomaji).flatten

/-- `KeyProcessor._build_assumed_keys`.  When a romaji is supplied it starts
with `_keys_for_now_node` (guaranteed by the caller), so Python's
`romaji.replace(keys, '', 1)` strips exactly that front part. -/
def build_assumed_keys (s : KPState) (path : List PNode) (romaji : Option Str) : KPState :=
  match romaji with
  | some r =>
    if r = [] then { s with assumed_keys := firstRomajisJoin path.dropLast }
    else
      { s with assumed_keys :=
          r.drop s.keys_for_now_node.length ++ firstRomajisJoin ((path.drop 1).dropLast) }
  | none => { s with assumed_keys := firstRomajisJoin path.dropLast }

/-- `KeyProcessor._update_assumed_keys`.  A `none` shortest path models the
exception Python would raise (no path / empty frontier); it cannot occur in
the well-formed states considered by the theorems below. -/
def update_assumed_keys (g : Graph) (s : KPState) : KPState :=
  match find_shortest_path g s.now_nodes with
  | none => s
  | some path =>
    if s.keys_for_now_node = [] then build_assumed_keys s path none
    else
      match (path.headD endNode).romajis.find?
          (fun r => s.keys_for_now_node.isPrefixOf r) with
      | some r => build_assumed_keys s path (some r)
      | none => s

/-- The set comprehension of `KeyProcessor._update_accepting_keys`: next
characters, at index `len(_keys_for_now_node)`, of all romaji of all current
nodes that start with `_keys_for_now_node`.  Python's `set` deduplicates with
arbitrary iteration order; `dedup` models the contents.  The default `'?'`
stands for the `IndexError` Python would raise on a romaji equal to
`_keys_for_now_node`, which occurs in no reachable state. -/
def derived_accepting_keys (nowNodes : List PNode) (kfnn : Str) : List Char :=
  (((nowNodes.map PNode.romajis).flatten.filter
    (fun r => kfnn.isPrefixOf r)).map (fun r => r.getD kfnn.length '?')).dedup

/-- `KeyProcessor._update_accepting_keys` (appends the extra `'n'` when the
`_allow_n` flag is set). -/
def update_accepting_keys (s : KPState) : KPState :=
  let ks := derived_accepting_keys s.now_nodes s.keys_for_now_node
  { s with accepting_keys := if s.allow_n then ks ++ ['n'] else ks }

/-- `KeyProcessor._update_now_nodes`. -/
def update_now_nodes (g : Graph) (s : KPState) (preNode : PNode) : KPState :=
  let nn := g.succs preNode
  let s1 := { s with now_nodes := nn }
  if nn = [endNode] then { s1 with assumed_keys := [] } else s1

/-- `KeyProcessor._prepare_for_next_nodes`. -/
def prepare_for_next_nodes (g : Graph) (s : KPState) (dummyKeys : Str) (preNode : PNode) :
    KPState :=
  let s1 := { s with confirmed_nodes_keys := s.confirmed_nodes_keys ++ dummyKeys }
  let s2 := update_now_nodes g s1 preNode
  { s2 with keys_for_now_node := [] }

/-- `KeyProcessor._process_for_now_nodes`. -/
def process_for_now_nodes (s : KPState) (dummyKeys : Str) (nodes : List PNode) : KPState :=
  { s with keys_for_now_node := dummyKeys, now_nodes := nodes }

/-- The two-character romaji `"nn"`. -/
def nnStr : Str := ['n', 'n']

/-- `KeyProcessor._process_dummy_keys`.  The Python loop stops at the first
node one of whose romaji equals `dummy_keys` (discarding any previously
collected still-in-progress nodes); otherwise it collects the nodes with a
romaji starting with `dummy_keys`, and leaves `_now_nodes` unchanged when
that collection is empty. -/
def process_dummy_keys (g : Graph) (s : KPState) (dummyKeys : Str) : KPState :=
  let s1 :=
    match s.now_nodes.find? (fun u => decide (dummyKeys ∈ u.romajis)) with
    | some v =>
      let sa := if nnStr ∈ v.romajis then { s with allow_n := true } else s
      prepare_for_next_nodes g sa dummyKeys v
    | none =>
      let kept := s.now_nodes.filter (fun u => u.romajis.any (fun r => dummyKeys.isPrefixOf r))
      if kept.isEmpty then s else process_for_now_nodes s dummyKeys kept
  update_assumed_keys g (update_accepting_keys s1)

/-- The sound effects a keystroke may trigger. -/
inductive SoundFx where
  | correct
  | wrong
deriving DecidableEq, Repr

/-- `KeyProcessor.check_key`: returns the pair
`(confirmed_keys, assumed_keys)` (`(none, none)` for a wrong key), the
updated processor state, and the sounds played for this keystroke. -/
def check_key (g : Graph) (s : KPState) (key : Char) :
    (Option Str × Option Str) × KPState × List SoundFx :=
  if key ∈ s.accepting_keys then
    let dummyKeys := s.keys_for_now_node ++ [key]
    if s.allow_n then
      let s1 := { s with allow_n := false, accepting_keys := s.accepting_keys.dropLast }
      if dummyKeys = ['n'] then
        let s2 := { s1 with confirmed_nodes_keys := s1.confirmed_nodes_keys ++ dummyKeys }
        ((some s2.confirmed_nodes_keys, some s2.assumed_keys), s2, [])
      else
        let s2 := process_dummy_keys g s1 dummyKeys
        ((some (s2.confirmed_nodes_keys ++ s2.keys_for_now_node), some s2.assumed_keys),
          s2, [SoundFx.correct])
    else
      let s2 := process_dummy_keys g s dummyKeys
      ((some (s2.confirmed_nodes_keys ++ s2.keys_for_now_node), some s2.assumed_keys),
        s2, [SoundFx.correct])
  else
    ((none, none), s, [SoundFx.wrong])

/-- `KeyProcessor.__init__`: `_keys_for_now_node = ''`,
`_confirmed_nodes_keys = ''`, `_update_now_nodes(start)`,
`_update_assumed_keys()`, `_allow_n = False`, `_update_accepting_keys()`. -/
def kpInit (g : Graph) : KPState :=
  let s : KPState :=
    { keys_for_now_node := [], confirmed_nodes_keys := [],
      now_nodes := g.succs startNode, assumed_keys := [],
      allow_n := false, accepting_keys := [] }
  update_accepting_keys (update_assumed_keys g s)

/-- Feed a list of keystrokes one at a time, collecting the per-key results. -/
def runKeys (g : Graph) (s : KPState) : List Char → List (Option Str × Option Str) × KPState
  | [] => ([], s)
  | k :: ks =>
    let r := check_key g s k
    let rest := runKeys g r.2.1 ks
    (r.1 :: rest.1, rest.2)

/-- Classification of one `check_key` result, following how
`Enemy.process_key` branches on the returned `assumed_keys`: a non-empty
string means a correct, continuing key; the empty string means the word was
completed (the enemy is killed and its points returned); `None` means a
wrong key. -/
inductive RKind where
  | wrong
  | cont
  | complete
deriving DecidableEq, Repr

/-- The branch of `Enemy.process_key` selected by a `check_key` result. -/
def resultKind : Option Str × Option Str → RKind
  | (_, none) => .wrong
  | (_, some []) => .complete
  | (_, some (_ :: _)) => .cont

/-! ## Word selector (`HiraTangoSelecter`) and keystroke accuracy (`Enemies`) -/

/-- Association-list lookup, modelling a Python `dict` (at most one entry per
key; `find?` takes the first). -/
def alistGet? {α β : Type} [DecidableEq α] (d : List (α × β)) (k : α) : Option β :=
  match d.find? (fun e => decide (e.1 = k)) with
  | some e => some e.2
  | none => none

/-- `d[k] = v` on a Python `dict`: replace in place (keeping the key's
position), or append a new entry at the end. -/
def alistSet {α β : Type} [DecidableEq α] : List (α × β) → α → β → List (α × β)
  | [], k, v => [(k, v)]
  | e :: t, k, v => if e.1 = k then (k, v) :: t else e :: alistSet t k v

/-- `del d[k]` / `d.pop(k)` on a Python `dict` (removing nothing when the key
is absent, where Python would raise `KeyError`). -/
def alistDel {α β : Type} [DecidableEq α] (d : List (α × β)) (k : α) : List (α × β) :=
  d.filter (fun e => decide (e.1 ≠ k))

/-- State of `HiraTangoSelecter`.  The value stored for a key of
`_incompatible_hira_dic` is a Python *generator* (the source assigns the
generator expression itself, not a tuple); it is modelled by the list of its
not-yet-consumed items, which iteration empties. -/
structure SelState where
  selectable_first_hiras : List Char
  unselectable_first_hiras_dic : List (Char × Nat)
  incompatible_hira_dic : List (Char × List Char)
deriving DecidableEq, Repr

/-- `HiraTangoSelecter._setup_incompatible_hira_dic`: for each data entry
whose key has vocabulary words, the stored generator will yield exactly the
partners that themselves have vocabulary words. -/
def setup_incompatible_hira_dic (vocabKeys : List Char) (raw : List (Char × List Char)) :
    List (Char × List Char) :=
  (raw.filter (fun e => decide (e.1 ∈ vocabKeys))).map
    (fun e => (e.1, e.2.filter (fun c => decide (c ∈ vocabKeys))))

/-- `HiraTangoSelecter.__init__` (`vocabKeys` are the keys of
`_same_first_hira_tangos_dic`, `raw` is the `incompatible_hira_dic` data). -/
def selecterInit (vocabKeys : List Char) (raw : List (Char × List Char)) : SelState :=
  { selectable_first_hiras := vocabKeys,
    unselectable_first_hiras_dic := [],
    incompatible_hira_dic := setup_incompatible_hira_dic vocabKeys raw }

/-- `HiraTangoSelecter._regulate_selection_targets`. -/
def regulate_selection_targets (s : SelState) (hira : Char) : SelState :=
  match alistGet? s.unselectable_first_hiras_dic hira with
  | none =>
    { s with
      unselectable_first_hiras_dic := s.unselectable_first_hiras_dic ++ [(hira, 1)],
      selectable_first_hiras := s.selectable_first_hiras.erase hira }
  | some n =>
    { s with unselectable_first_hiras_dic := alistSet s.unselectable_first_hiras_dic hira (n + 1) }

/-- `HiraTangoSelecter.select`, given the hiragana `random.choice` picked
(which word of that first kana is then picked is irrelevant to the selection
state).  Iterating the stored generator consumes it: the remaining-item list
is drained to `[]`. -/
def selecter_select (s : SelState) (first_hira : Char) : SelState :=
  let s1 := regulate_selection_targets s first_hira
  match alistGet? s1.incompatible_hira_dic first_hira with
  | some rem =>
    let s2 := rem.foldl regulate_selection_targets s1
    { s2 with incompatible_hira_dic := alistSet s2.incompatible_hira_dic first_hira [] }
  | none => s1

/-- `HiraTangoSelecter._add_hira_to_selectable_first_hiras` (a key absent
from `_unselectable_first_hiras_dic` would raise `KeyError` in Python; the
model leaves the state unchanged). -/
def add_hira_to_selectable_first_hiras (s : SelState) (hira : Char) : SelState :=
  match alistGet? s.unselectable_first_hiras_dic hira with
  | none => s
  | some n =>
    if n = 1 then
      { s with
        selectable_first_hiras := s.selectable_first_hiras ++ [hira],
        unselectable_first_hiras_dic := alistDel s.unselectable_first_hiras_dic hira }
    else
      { s with unselectable_first_hiras_dic := alistSet s.unselectable_first_hiras_dic hira (n - 1) }

/-- `HiraTangoSelecter.deregulate`.  It iterates the same stored generator
object as `select` did, so it sees only the items `select` has not already
consumed. -/
def selecter_deregulate (s : SelState) (first_hira : Char) : SelState :=
  let s1 := add_hira_to_selectable_first_hiras s first_hira
  match alistGet? s1.incompatible_hira_dic first_hira with
  | some rem =>
    let s2 := rem.foldl add_hira_to_selectable_first_hiras s1
    { s2 with incompatible_hira_dic := alistSet s2.incompatible_hira_dic first_hira [] }
  | none => s1

/-- `HiraTangoSelecter.select` including the `random.choice` call, with the
random draw supplied as an index.  `random.choice` on an empty sequence
raises `IndexError`; since neither `select` nor `Enemies.add` catches it,
that exception aborts the session — modelled by `none`. -/
def selecter_select_run (s : SelState) (i : Nat) : Option (Char × SelState) :=
  match s.selectable_first_hiras with
  | [] => none
  | c0 :: rest =>
    let c := (c0 :: rest).getD (i % (c0 :: rest).length) c0
    some (c, selecter_select s c)

/-- Python's `round` on a value exactly representable: round half to even. -/
def roundHalfEven (q : ℚ) : ℤ :=
  let f := ⌊q⌋
  let r := q - f
  if r < 1 / 2 then f
  else if 1 / 2 < r then f + 1
  else if f % 2 = 0 then f else f + 1

/-- `round(x, 2)`. -/
def pyRound2 (q : ℚ) : ℚ := (roundHalfEven (q * 100) : ℚ) / 100

/-- `Enemies.calc_accuracy`, as a function of the `_correct_count` and
`_incorrect_count` attributes. -/
def calc_accuracy (correct_count incorrect_count : ℕ) : ℚ :=
  let inputs_num := correct_count + incorrect_count
  if inputs_num = 0 then 0
  else pyRound2 ((correct_count : ℚ) / (inputs_num : ℚ) * 100)

/-- The accuracy metric as the spec words it: correct keystrokes divided by
(correct plus incorrect keystrokes), times 100, rounded to 2 decimal places,
and 0 when no keystrokes have occurred. -/
def specAccuracy (c i : ℕ) : ℚ :=
  if c + i = 0 then 0 else pyRound2 ((c : ℚ) / ((c : ℚ) + (i : ℚ)) * 100)

/-! ## Well-formedness predicates, spec-side definitions, example graphs -/

/-- A romaji node with a non-empty list of non-empty alternatives. -/
def goodTokB : PNode → Bool
  | .se _ _ => false
  | .tok alts _ => !alts.isEmpty && alts.all (fun a => !a.isEmpty)

/-- Every node reachable as a successor is either the end sentinel or a
well-formed romaji node, and has a path to the end node (the graph
invariants of the data model). -/
def wfGraphB (g : Graph) : Bool :=
  g.adj.all (fun e => e.2.all (fun u =>
    (decide (u = endNode) || goodTokB u) &&
      (nxShortestPath g g.fuel u endNode).isSome))

/-- No romaji of a sibling node (a fellow successor of a common node) is a
prefix of a romaji of a different sibling, and distinct romaji of one node
are never prefixes of one another. -/
def prefixFreeB (g : Graph) : Bool :=
  g.adj.all (fun e => e.2.all (fun u => e.2.all (fun v =>
    decide (u = endNode) || decide (v = endNode) ||
      u.romajis.all (fun a => v.romajis.all (fun b =>
        !(a.isPrefixOf b) || (decide (u = v) && decide (a = b)))))))

/-- `u` occurs in some successor list of the graph. -/
def inGraphSuccB (g : Graph) (u : PNode) : Bool :=
  g.adj.any (fun e => decide (u ∈ e.2))

/-- The first listed alternative of the node is one of minimal length. -/
def headMinimalB (u : PNode) : Bool :=
  u.romajis.all (fun r => decide ((u.romajis.headD []).length ≤ r.length))

/-- Modelled from the spec: the graph builder (not part of the sources, the
word graphs are loaded from a pickled data file) lists each node's
alternatives with a shortest one first, so that `node[0][0]` — the
alternative the code concatenates into the prediction — is "the single
shortest alternative spelling" the spec describes. -/
def sortedAltsB (g : Graph) : Bool :=
  g.adj.all (fun e => e.2.all headMinimalB)

/-- A shortest alternative spelling of a node (the first one of minimal
length), as the spec's prediction formula demands. -/
def specShortestAlt (u : PNode) : Str :=
  u.romajis.foldl (fun best r => if r.length < best.length then r else best)
    (u.romajis.headD [])

/-- The spec's prediction formula: the alternative of the chosen frontier
node on the shortest frontier-to-end path that starts with the typed part,
with the typed part stripped from its front, followed by the single shortest
alternative spelling of every subsequent node of that path up to (excluding)
the end node. -/
def specPredicted (g : Graph) (frontier : List PNode) (kfnn : Str) : Option Str :=
  match find_shortest_path g frontier with
  | none => none
  | some path =>
    if kfnn = [] then some ((path.dropLast.map specShortestAlt).flatten)
    else
      match (path.headD endNode).romajis.find? (fun r => kfnn.isPrefixOf r) with
      | some r =>
        some (r.drop kfnn.length ++ ((path.drop 1).dropLast.map specShortestAlt).flatten)
      | none => none

/-- Paths of the graph: `PathOf g tgt src p` states that `p` leads from
`src` to `tgt` along successor edges. -/
inductive PathOf (g : Graph) (tgt : PNode) : PNode → List PNode → Prop where
  | nil : PathOf g tgt tgt [tgt]
  | cons {v v' : PNode} {p : List PNode} :
      v' ∈ g.succs v → PathOf g tgt v' p → PathOf g tgt v (v :: p)

/-- The first character of the alternative chosen for the next node of a
path (used to state the trailing-n side condition). -/
def nextAltHead : List (PNode × Str) → Char
  | [] => ' '
  | (_, a) :: _ => a.headD ' '

/-- A Start-to-End path of the word graph together with one chosen
alternative per node, along which typing is deterministic:
consecutive successor edges, the end node reachable exactly at the final
node, each chosen alternative belonging to its node, and no node with an
`"nn"` alternative followed by an alternative beginning with `'n'`. -/
def goodPathB (g : Graph) : PNode → List (PNode × Str) → Bool
  | prev, [] => decide (g.succs prev = [endNode])
  | prev, (v, a) :: rest =>
    decide (v ∈ g.succs prev) && decide (endNode ∉ g.succs prev) &&
      decide (a ∈ v.romajis) &&
      (!decide (nnStr ∈ v.romajis) || decide (nextAltHead rest ≠ 'n')) &&
      goodPathB g v rest

/-- The keystrokes of a path: the concatenation of the chosen alternatives. -/
def keysOf (path : List (PNode × Str)) : List Char := (path.map (fun e => e.2)).flatten

/-- The word あい: a single Start→End path with alternatives `a` then `i`
(the spec's end-to-end scenario). -/
def nodeA : PNode := .tok [['a']] 1

def nodeI : PNode := .tok [['i']] 2

def graphAI : Graph :=
  ⟨[(startNode, [nodeA]), (nodeA, [nodeI]), (nodeI, [endNode])]⟩

/-- A word ん+に shaped graph: a node with alternatives `n` and `nn`
followed by a node with alternative `ni`. -/
def nodeN : PNode := .tok [['n'], ['n', 'n']] 1

def nodeNI : PNode := .tok [['n', 'i']] 2

def graphNN : Graph :=
  ⟨[(startNode, [nodeN]), (nodeN, [nodeNI]), (nodeNI, [endNode])]⟩

/-- A two-kana demonstration vocabulary for the selector: first kanas `a`
and `b`, mutually ambiguity-partnered. -/
def selDemoInit : SelState := selecterInit ['a', 'b'] [('a', ['b']), ('b', ['a'])]

/-- The selector after one `select` that drew `a` and the matching
`deregulate('a')`. -/
def selDemoAfter : SelState := selecter_deregulate (selecter_select selDemoInit 'a') 'a'

/-! ## The enemy lifecycle coordinator (`Enemies`) -/

/-- State of `Enemies`: per-enemy `(first_hira, graph, KeyProcessor state)`
keyed by an identity (Python object identity), the unlocked-enemy first-key
index `_first_keys_dic`, the locked enemy `_inputting_enemy`, the selector,
and the keystroke tallies.  Sprite groups, sounds and the meteor positions
are rendering collaborators outside the matching engine. -/
structure EnemiesM where
  states : List (Nat × (Char × Graph × KPState))
  first_keys_dic : List (Char × Nat)
  inputting_enemy : Option Nat
  selecter : SelState
  next_id : Nat
  correct_count : Nat
  incorrect_count : Nat
deriving DecidableEq, Repr

/-- `Enemies.__init__` / `Enemies.reset`. -/
def enemiesInit (vocabKeys : List Char) (raw : List (Char × List Char)) : EnemiesM :=
  { states := [], first_keys_dic := [], inputting_enemy := none,
    selecter := selecterInit vocabKeys raw, next_id := 0,
    correct_count := 0, incorrect_count := 0 }

/-- `Enemies._extend_first_keys_dic`. -/
def extend_first_keys_dic (d : List (Char × Nat)) (keys : List Char) (eid : Nat) :
    List (Char × Nat) :=
  keys.foldl (fun d k => alistSet d k eid) d

/-- `Enemies._contract_first_keys_dic`. -/
def contract_first_keys_dic (d : List (Char × Nat)) (keys : List Char) : List (Char × Nat) :=
  keys.foldl (fun d k => alistDel d k) d

/-- `Enemies.add` at a spawn tick: the selector picked `hira` and the
`EnemyMaker` produced the word graph `g`; the new enemy's `KeyProcessor` is
initialized on `g` and the enemy is registered in `_first_keys_dic` under
each of its accepting first keys. -/
def enemies_add (m : EnemiesM) (hira : Char) (g : Graph) : EnemiesM :=
  let kp := kpInit g
  let eid := m.next_id
  { m with
    states := m.states ++ [(eid, (hira, g, kp))],
    first_keys_dic := extend_first_keys_dic m.first_keys_dic kp.accepting_keys eid,
    selecter := selecter_select m.selecter hira,
    next_id := eid + 1 }

/-- `Enemies._kill_enemy`. -/
def kill_enemy (m : EnemiesM) (eid : Nat) : EnemiesM :=
  if m.inputting_enemy = some eid then
    { m with inputting_enemy := none, states := alistDel m.states eid }
  else
    match alistGet? m.states eid with
    | some (hira, _, kp) =>
      { m with
        first_keys_dic := contract_first_keys_dic m.first_keys_dic kp.accepting_keys,
        selecter := selecter_deregulate m.selecter hira,
        states := alistDel m.states eid }
    | none => m

/-- `Enemies._process_for_new_inputting_enemy` (the sprite-group moves are
rendering-only). -/
def process_for_new_inputting_enemy (m : EnemiesM) (kp : KPState) (hira : Char) : EnemiesM :=
  { m with
    first_keys_dic := contract_first_keys_dic m.first_keys_dic kp.accepting_keys,
    selecter := selecter_deregulate m.selecter hira }

/-- `Enemies._process_key`. -/
def enemies_process_key (m : EnemiesM) (key : Char) : EnemiesM :=
  match m.inputting_enemy with
  | some eid =>
    match alistGet? m.states eid with
    | some (hira, g, kp) =>
      let r := check_key g kp key
      let m1 := { m with states := alistSet m.states eid (hira, g, r.2.1) }
      match resultKind r.1 with
      | .cont => { m1 with correct_count := m1.correct_count + 1 }
      | .complete => kill_enemy { m1 with correct_count := m1.correct_count + 1 } eid
      | .wrong => { m1 with incorrect_count := m1.incorrect_count + 1 }
    | none => m
  | none =>
    match alistGet? m.first_keys_dic key with
    | some eid =>
      match alistGet? m.states eid with
      | some (hira, g, kp) =>
        let m1 := process_for_new_inputting_enemy
          { m with inputting_enemy := some eid } kp hira
        let r := check_key g kp key
        { m1 with
          states := alistSet m1.states eid (hira, g, r.2.1),
          correct_count := m1.correct_count + 1 }
      | none => m
    | none => { m with incorrect_count := m.incorrect_count + 1 }

/-- The coordinator states reachable from a fresh `Enemies` by spawn ticks,
keystrokes, and collisions. -/
inductive EnemiesReach (vocabKeys : List Char) (raw : List (Char × List Char)) :
    EnemiesM → Prop where
  | init : EnemiesReach vocabKeys raw (enemiesInit vocabKeys raw)
  | add {m : EnemiesM} (hira : Char) (g : Graph) :
      EnemiesReach vocabKeys raw m → EnemiesReach vocabKeys raw (enemies_add m hira g)
  | key {m : EnemiesM} (k : Char) :
      EnemiesReach vocabKeys raw m → EnemiesReach vocabKeys raw (enemies_process_key m k)
  | collide {m : EnemiesM} (eid : Nat) :
      EnemiesReach vocabKeys raw m → EnemiesReach vocabKeys raw (kill_enemy m eid)

/-- The index invariant of the coordinator: every entry of
`_first_keys_dic` points at a present, unlocked enemy whose `KeyProcessor`
is still in its initial state and accepts that key. -/
def DicInv (m : EnemiesM) : Prop :=
  ∀ k eid, alistGet? m.first_keys_dic k = some eid →
    ∃ hira g, alistGet? m.states eid = some (hira, g, kpInit g) ∧
      k ∈ (kpInit g).accepting_keys ∧ m.inputting_enemy ≠ some eid

/-! ## Basic lemmas about the shortest-path model -/

theorem pickBest_sound {get : PNode → Option (List PNode)} {l : List PNode}
    {p : List PNode} (h : pickBest get l = some p) : ∃ x ∈ l, get x = some p := by
  induction l with
  | nil => simp [pickBest] at h
  | cons x xs ih =>
    rcases hx : get x with _ | p₁ <;> rcases hr : pickBest get xs with _ | q <;>
        simp only [pickBest, hx, hr] at h
    · exact absurd h (by simp)
    · obtain ⟨y, hy, hgy⟩ := ih (hr.trans h)
      exact ⟨y, List.mem_cons_of_mem x hy, hgy⟩
    · exact ⟨x, List.mem_cons_self x xs, hx.trans h⟩
    · split at h
      · obtain ⟨y, hy, hgy⟩ := ih (hr.trans h)
        exact ⟨y, List.mem_cons_of_mem x hy, hgy⟩
      · exact ⟨x, List.mem_cons_self x xs, hx.trans h⟩

theorem pickBest_min (get : PNode → Option (List PNode)) {l : List PNode}
    {x : PNode} {p : List PNode} (hx : x ∈ l) (hp : get x = some p) :
    ∃ r, pickBest get l = some r ∧ r.length ≤ p.length := by
  induction l with
  | nil => simp at hx
  | cons y ys ih =>
    rcases List.mem_cons.mp hx with rfl | hmem
    · rcases hr : pickBest get ys with _ | q
      · exact ⟨p, by simp only [pickBest, hp, hr], le_refl _⟩
      · by_cases hlt : q.length < p.length
        · exact ⟨q, by simp only [pickBest, hp, hr]; rw [if_pos hlt], le_of_lt hlt⟩
        · exact ⟨p, by simp only [pickBest, hp, hr]; rw [if_neg hlt], le_refl _⟩
    · obtain ⟨r, hr, hrle⟩ := ih hmem
      rcases hy : get y with _ | q
      · exact ⟨r, by simp only [pickBest, hy, hr], hrle⟩
      · by_cases hlt : r.length < q.length
        · exact ⟨r, by simp only [pickBest, hy, hr]; rw [if_pos hlt], hrle⟩
        · exact ⟨q, by simp only [pickBest, hy, hr]; rw [if_neg hlt],
            le_trans (not_lt.mp hlt) hrle⟩

theorem PathOf.ne_nil {g : Graph} {tgt src : PNode} {p : List PNode}
    (h : PathOf g tgt src p) : p ≠ [] := by
  cases h <;> simp

theorem PathOf.head_struct {g : Graph} {tgt src : PNode} {p : List PNode}
    (h : PathOf g tgt src p) : ∃ t, p = src :: t ∧ (src ≠ tgt → t ≠ []) := by
  cases h with
  | nil => exact ⟨[], rfl, fun hne => absurd rfl hne⟩
  | cons hmem htail => exact ⟨_, rfl, fun _ => htail.ne_nil⟩

theorem nx_sound {g : Graph} {f : Nat} {src tgt : PNode} {p : List PNode}
    (h : nxShortestPath g f src tgt = some p) : PathOf g tgt src p := by
  induction f generalizing src p with
  | zero => simp [nxShortestPath] at h
  | succ f ih =>
    rw [nxShortestPath] at h
    by_cases heq : src = tgt
    · rw [if_pos heq] at h
      cases h
      rw [heq]
      exact PathOf.nil
    · rw [if_neg heq] at h
      obtain ⟨nxt, hmem, hget⟩ := pickBest_sound h
      rcases hsub : nxShortestPath g f nxt tgt with _ | p'
      · rw [hsub] at hget; simp at hget
      · rw [hsub] at hget
        simp only [Option.map_some'] at hget
        cases hget
        exact PathOf.cons hmem (ih hsub)

theorem nx_min {g : Graph} {f : Nat} {src tgt : PNode} {q : List PNode}
    (hq : PathOf g tgt src q) (hlen : q.length ≤ f) :
    ∃ p, nxShortestPath g f src tgt = some p ∧ p.length ≤ q.length := by
  induction f generalizing src q with
  | zero =>
    have : q = [] := List.length_eq_zero.mp (Nat.le_zero.mp hlen)
    exact absurd this hq.ne_nil
  | succ f ih =>
    by_cases heq : src = tgt
    · refine ⟨[src], by rw [nxShortestPath, if_pos heq], ?_⟩
      have hne := hq.ne_nil
      cases q with
      | nil => exact absurd rfl hne
      | cons a t => simp
    · cases hq with
      | nil => exact absurd rfl heq
      | @cons _ v' q' hmem htail =>
        have hlen' : q'.length ≤ f := by simpa using hlen
        obtain ⟨p', hp', hple⟩ := ih htail hlen'
        have hget : (fun nxt => (nxShortestPath g f nxt tgt).map (src :: ·)) v'
            = some (src :: p') := by simp [hp']
        obtain ⟨r, hr, hrle⟩ :=
          pickBest_min (fun nxt => (nxShortestPath g f nxt tgt).map (src :: ·)) hmem hget
        refine ⟨r, ?_, ?_⟩
        · rw [nxShortestPath, if_neg heq]; exact hr
        · calc r.length ≤ (src :: p').length := hrle
            _ ≤ (src :: q').length := by simpa using hple

theorem succ_mem_keys {g : Graph} {x y : PNode} (h : y ∈ g.succs x) :
    x ∈ g.adj.map Prod.fst := by
  unfold Graph.succs at h
  rcases hf : g.adj.find? (fun e => decide (e.1 = x)) with _ | e
  · rw [hf] at h; simp at h
  · have hmem := List.mem_of_find?_eq_some hf
    have hkey : e.1 = x := by
      have := List.find?_some hf
      simpa using this
    exact List.mem_map.mpr ⟨e, hmem, hkey⟩

theorem pathof_dropLast_keys {g : Graph} {tgt src : PNode} {q : List PNode}
    (h : PathOf g tgt src q) : ∀ x ∈ q.dropLast, x ∈ g.adj.map Prod.fst := by
  induction h with
  | nil => simp
  | @cons v v' p hmem htail ih =>
    intro x hx
    rw [List.dropLast_cons_of_ne_nil htail.ne_nil] at hx
    rcases List.mem_cons.mp hx with rfl | hx'
    · exact succ_mem_keys hmem
    · exact ih x hx'

theorem pathof_nodup_length_le {g : Graph} {tgt src : PNode} {q : List PNode}
    (h : PathOf g tgt src q) (hnd : q.Nodup) : q.length ≤ g.fuel := by
  have hsub : q.dropLast ⊆ g.adj.map Prod.fst := fun x hx => pathof_dropLast_keys h x hx
  have hnd' : q.dropLast.Nodup := hnd.sublist (List.dropLast_sublist q)
  have hle : q.dropLast.length ≤ (g.adj.map Prod.fst).length :=
    (hnd'.subperm hsub).length_le
  have hq : q.length ≤ q.dropLast.length + 1 := by
    cases q with
    | nil => simp
    | cons a t => simp [List.length_dropLast]
  calc q.length ≤ q.dropLast.length + 1 := hq
    _ ≤ (g.adj.map Prod.fst).length + 1 := by omega
    _ = g.fuel := by simp [Graph.fuel]

theorem fsp_sound {g : Graph} {ns : List PNode} {p : List PNode}
    (h : find_shortest_path g ns = some p) : ∃ src ∈ ns, PathOf g endNode src p := by
  obtain ⟨src, hmem, hget⟩ := pickBest_sound h
  exact ⟨src, hmem, nx_sound hget⟩

theorem fsp_exists {g : Graph} {ns : List PNode} {u : PNode}
    (hu : u ∈ ns) (hsome : (nxShortestPath g g.fuel u endNode).isSome) :
    ∃ p, find_shortest_path g ns = some p := by
  obtain ⟨q, hq⟩ := Option.isSome_iff_exists.mp hsome
  obtain ⟨r, hr, _⟩ :=
    pickBest_min (fun node => nxShortestPath g g.fuel node endNode) hu hq
  exact ⟨r, hr⟩

theorem fsp_min {g : Graph} {ns : List PNode} {src : PNode} {q : List PNode}
    (hsrc : src ∈ ns) (hq : PathOf g endNode src q) (hnd : q.Nodup) :
    ∃ r, find_shortest_path g ns = some r ∧ r.length ≤ q.length := by
  obtain ⟨p, hp, hple⟩ := nx_min hq (pathof_nodup_length_le hq hnd)
  obtain ⟨r, hr, hrle⟩ :=
    pickBest_min (fun node => nxShortestPath g g.fuel node endNode) hsrc hp
  exact ⟨r, hr, le_trans hrle hple⟩

/-! ## Claim theorems: rejection, allow-n bookkeeping, accuracy, selector -/

/-- C5: for every `KeyProcessor` state and every key not in the current
`accepting_keys`, `check_key` returns `(None, None)`, mutates none of the
confirmed text, the typed part, the frontier, the prediction, or
`accepting_keys` (the state comes back unchanged), and plays the wrong-key
sound exactly once. -/
theorem c5_rejected_key_no_mutation (g : Graph) (s : KPState) (key : Char)
    (h : key ∉ s.accepting_keys) :
    check_key g s key = ((none, none), s, [SoundFx.wrong]) := by
  simp [check_key, h]

theorem c5_rejected_key_no_mutation_witness :
    'z' ∉ (kpInit graphAI).accepting_keys ∧
      check_key graphAI (kpInit graphAI) 'z' = ((none, none), kpInit graphAI, [SoundFx.wrong]) :=
  ⟨by decide, c5_rejected_key_no_mutation graphAI (kpInit graphAI) 'z' (by decide)⟩

/-- C10: in the allow-n state, accepting the extra `'n'` changes only the
confirmed text (extended by `'n'`), clears the flag and removes exactly the
appended `'n'` from `accepting_keys`; the frontier, the typed part and the
prediction are untouched, the returned prediction is the stale one computed
after the previous keystroke, and no sound (in particular not the
correct-key sound) is played. -/
theorem c10_allow_n_extra_key_effects (g : Graph) (s : KPState) (ks : List Char)
    (ha : s.allow_n = true) (hk : s.keys_for_now_node = [])
    (hacc : s.accepting_keys = ks ++ ['n']) :
    check_key g s 'n' =
      ((some (s.confirmed_nodes_keys ++ ['n']), some s.assumed_keys),
        { s with allow_n := false, accepting_keys := ks,
                 confirmed_nodes_keys := s.confirmed_nodes_keys ++ ['n'] }, []) := by
  have hmem : 'n' ∈ s.accepting_keys := by rw [hacc]; simp
  simp [check_key, hmem, ha, hk, hacc, List.dropLast_concat]

theorem c10_allow_n_extra_key_effects_witness :
    ((check_key graphNN (kpInit graphNN) 'n').2.1.allow_n = true ∧
      (check_key graphNN (kpInit graphNN) 'n').2.1.keys_for_now_node = [] ∧
      (check_key graphNN (kpInit graphNN) 'n').2.1.accepting_keys = ['n'] ++ ['n']) ∧
      check_key graphNN (check_key graphNN (kpInit graphNN) 'n').2.1 'n' =
        ((some ((check_key graphNN (kpInit graphNN) 'n').2.1.confirmed_nodes_keys ++ ['n']),
            some (check_key graphNN (kpInit graphNN) 'n').2.1.assumed_keys),
          { (check_key graphNN (kpInit graphNN) 'n').2.1 with
              allow_n := false, accepting_keys := ['n'],
              confirmed_nodes_keys :=
                (check_key graphNN (kpInit graphNN) 'n').2.1.confirmed_nodes_keys ++ ['n'] },
          []) :=
  ⟨⟨by decide, by decide, by decide⟩,
    c10_allow_n_extra_key_effects graphNN (check_key graphNN (kpInit graphNN) 'n').2.1 ['n']
      (by decide) (by decide) (by decide)⟩

/-- C9: the accuracy metric equals correct keystrokes divided by the total
keystroke count, times 100, rounded to 2 decimal places, and equals 0 when
no keystroke has occurred; in particular 7 correct and 3 incorrect
keystrokes give exactly 70.00, and 0 keystrokes give 0. -/
theorem c9_accuracy_formula :
    calc_accuracy 7 3 = 70 ∧ calc_accuracy 0 0 = 0 ∧
      ∀ c i : ℕ, calc_accuracy c i = specAccuracy c i := by
  refine ⟨?_, by simp [calc_accuracy], ?_⟩
  · show (if (7 + 3 : ℕ) = 0 then (0 : ℚ) else pyRound2 ((7 : ℚ) / ((10 : ℕ) : ℚ) * 100)) = 70
    norm_num [pyRound2, roundHalfEven]
  · intro c i
    unfold calc_accuracy specAccuracy
    by_cases h : c + i = 0
    · simp [h]
    · rw [if_neg h, if_neg h]
      congr 2
      push_cast
      ring

/-- C6: the claim's accounting — each `select` of a word with first kana `k`
places one exclusion unit on `k` and on each ambiguity-partner, each
`deregulate(k)` removes one unit from `k` and from each partner, so no
character stays excluded after matching numbers of calls — fails in the
code: `_setup_incompatible_hira_dic` stores a *generator* which `select`'s
iteration exhausts, so the matching `deregulate` sees no partners.  After
`select` drew `a` (partner `b`: both hold one exclusion unit) and the
matching `deregulate('a')`, the partner `b` still holds its exclusion unit
and is no longer selectable, permanently. -/
theorem c6_partner_exclusion_leak :
    (alistGet? (selecter_select selDemoInit 'a').unselectable_first_hiras_dic 'b' = some 1 ∧
      alistGet? (selecter_select selDemoInit 'a').unselectable_first_hiras_dic 'a' = some 1) ∧
      alistGet? selDemoAfter.unselectable_first_hiras_dic 'b' = some 1 ∧
      alistGet? selDemoAfter.unselectable_first_hiras_dic 'a' = none ∧
      'b' ∉ selDemoAfter.selectable_first_hiras ∧
      'a' ∈ selDemoAfter.selectable_first_hiras := by decide

/-- C7: when the pool of selectable first kanas is empty at a spawn tick,
`select` does not skip the spawn: `random.choice` on the empty list raises
`IndexError` (modelled by `none`), which no caller catches, aborting the
session — contrary to the claim. -/
theorem c7_empty_pool_selection_raises (s : SelState) (i : Nat)
    (h : s.selectable_first_hiras = []) :
    selecter_select_run s i = none := by
  simp [selecter_select_run, h]

theorem c7_empty_pool_selection_raises_witness :
    (selecter_select selDemoInit 'a').selectable_first_hiras = [] ∧
      selecter_select_run (selecter_select selDemoInit 'a') 0 = none :=
  ⟨by decide, c7_empty_pool_selection_raises (selecter_select selDemoInit 'a') 0 (by decide)⟩

/-! ## Counterexamples for the trailing-n claims -/

/-- C1 counterexample: in the graph of a word shaped like ん+に — a node
with alternatives `n`/`nn` whose successor's alternative is `ni` — the
Start→End path choosing `n` then `ni` concatenates to the keystrokes
`n`,`n`,`i`; feeding them to a fresh `KeyProcessor` gets the third
keystroke rejected (`(None, None)`), not accepted, because the second `n`
is consumed as the doubled-n completion of the first node. -/
theorem c1_path_keystroke_rejected_counterexample :
    (nodeN ∈ graphNN.succs startNode ∧ nodeNI ∈ graphNN.succs nodeN ∧
      graphNN.succs nodeNI = [endNode] ∧ ['n'] ∈ nodeN.romajis ∧
      ['n', 'i'] ∈ nodeNI.romajis ∧
      keysOf [(nodeN, ['n']), (nodeNI, ['n', 'i'])] = ['n', 'n', 'i']) ∧
      (runKeys graphNN (kpInit graphNN) ['n', 'n', 'i']).1.map resultKind =
        [RKind.cont, RKind.cont, RKind.wrong] := by decide

/-- C3 counterexample: when the candidate `n` exactly matches the
single-character alternative of a frontier node that also carries `nn`, the
code does *not* hold position as the claim states: it advances past the
node — the confirmed text is extended by `n`, the typed part is reset to
empty (not kept at `n`), and the frontier becomes the node's successors
(not the nodes whose alternatives start with `n`).  Only the allow-n flag
part of the claim holds. -/
theorem c3_hold_position_counterexample :
    ((kpInit graphNN).now_nodes = [nodeN] ∧ (kpInit graphNN).keys_for_now_node = [] ∧
      (kpInit graphNN).confirmed_nodes_keys = [] ∧ ['n'] ∈ nodeN.romajis ∧
      nnStr ∈ nodeN.romajis) ∧
      ((check_key graphNN (kpInit graphNN) 'n').2.1.confirmed_nodes_keys = ['n'] ∧
        (check_key graphNN (kpInit graphNN) 'n').2.1.keys_for_now_node = [] ∧
        (check_key graphNN (kpInit graphNN) 'n').2.1.now_nodes = [nodeNI] ∧
        (check_key graphNN (kpInit graphNN) 'n').2.1.allow_n = true) := by decide

/-! ## Characterization lemmas for the keystroke-processing functions -/

theorem find?_pred_first {α : Type} {p : α → Bool} {pre post : List α} {v : α}
    (hpre : ∀ u ∈ pre, p u = false) (hv : p v = true) :
    (pre ++ v :: post).find? p = some v := by
  induction pre with
  | nil => simp [List.find?_cons, hv]
  | cons a l ih =>
    have ha := hpre a (List.mem_cons_self a l)
    simp only [List.cons_append, List.find?_cons, ha]
    exact ih (fun u hu => hpre u (List.mem_cons_of_mem a hu))

theorem update_now_nodes_ne {g : Graph} {s : KPState} {preNode : PNode}
    (h : g.succs preNode ≠ [endNode]) :
    update_now_nodes g s preNode = { s with now_nodes := g.succs preNode } := by
  simp [update_now_nodes, h]

theorem prepare_ne {g : Graph} {s : KPState} {dummy : Str} {v : PNode}
    (h : g.succs v ≠ [endNode]) :
    prepare_for_next_nodes g s dummy v =
      { s with confirmed_nodes_keys := s.confirmed_nodes_keys ++ dummy,
               now_nodes := g.succs v, keys_for_now_node := [] } := by
  simp [prepare_for_next_nodes, update_now_nodes, h]

theorem update_accepting_fields (s : KPState) :
    update_accepting_keys s =
      { s with accepting_keys :=
          if s.allow_n then
            derived_accepting_keys s.now_nodes s.keys_for_now_node ++ ['n']
          else derived_accepting_keys s.now_nodes s.keys_for_now_node } := by
  simp only [update_accepting_keys]

theorem update_assumed_empty_kfnn {g : Graph} {s : KPState} {path : List PNode}
    (hk : s.keys_for_now_node = [])
    (hp : find_shortest_path g s.now_nodes = some path) :
    update_assumed_keys g s = { s with assumed_keys := firstRomajisJoin path.dropLast } := by
  simp [update_assumed_keys, hp, hk, build_assumed_keys]

theorem pdk_exact {g : Graph} {s : KPState} {dummy : Str} {v : PNode}
    (hfind : s.now_nodes.find? (fun u => decide (dummy ∈ u.romajis)) = some v) :
    process_dummy_keys g s dummy =
      update_assumed_keys g (update_accepting_keys
        (prepare_for_next_nodes g
          (if nnStr ∈ v.romajis then { s with allow_n := true } else s) dummy v)) := by
  simp only [process_dummy_keys, hfind]

theorem pdk_keep {g : Graph} {s : KPState} {dummy : Str}
    (hfind : s.now_nodes.find? (fun u => decide (dummy ∈ u.romajis)) = none)
    (hne : s.now_nodes.filter (fun u => u.romajis.any (fun r => dummy.isPrefixOf r)) ≠ []) :
    process_dummy_keys g s dummy =
      update_assumed_keys g (update_accepting_keys
        (process_for_now_nodes s dummy
          (s.now_nodes.filter (fun u => u.romajis.any (fun r => dummy.isPrefixOf r))))) := by
  simp only [process_dummy_keys, hfind]
  rw [if_neg (by simpa [List.isEmpty_iff] using hne)]

theorem firstRomaji_ne_nil {u : PNode} (h1 : u.romajis ≠ [])
    (h2 : ∀ a ∈ u.romajis, a ≠ []) : u.firstRomaji ≠ [] := by
  cases u with
  | se tag k =>
    cases tag with
    | nil => simp [PNode.romajis] at h1
    | cons c t => simp [PNode.firstRomaji]
  | tok alts pos =>
    cases alts with
    | nil => simp [PNode.romajis] at h1
    | cons a t =>
      have := h2 a (by simp [PNode.romajis])
      simpa [PNode.firstRomaji] using this

theorem firstRomajisJoin_cons_ne {src : PNode} {t : List PNode}
    (h1 : src.romajis ≠ []) (h2 : ∀ a ∈ src.romajis, a ≠ []) :
    firstRomajisJoin (src :: t) ≠ [] := by
  have hne : src.firstRomaji ≠ [] := firstRomaji_ne_nil h1 h2
  simp only [firstRomajisJoin, List.map_cons, List.flatten_cons]
  intro hcon
  exact hne (List.append_eq_nil.mp hcon).1

theorem getD_append_length {p : Str} {c : Char} {t : Str} (d : Char) :
    (p ++ c :: t).getD p.length d = c := by
  induction p with
  | nil => rfl
  | cons a q ih => simpa [List.getD] using ih

theorem mem_derived_accepting {nodes : List PNode} {kfnn : Str} {v : PNode} {r : Str}
    (hv : v ∈ nodes) (hr : r ∈ v.romajis) (hpre : kfnn.isPrefixOf r = true) :
    r.getD kfnn.length '?' ∈ derived_accepting_keys nodes kfnn := by
  unfold derived_accepting_keys
  rw [List.mem_dedup]
  refine List.mem_map.mpr ⟨r, ?_, rfl⟩
  rw [List.mem_filter]
  exact ⟨List.mem_flatten.mpr ⟨v.romajis, List.mem_map.mpr ⟨v, hv, rfl⟩, hr⟩, hpre⟩

/-- C3 (amended): when the candidate string (typed part plus new key) is the
single character `n` and exactly matches the alternative `n` of the first
frontier node carrying it, a node that also carries the alternative `nn`,
the keystroke is accepted and the processor *advances past the node*: the
confirmed text is extended by `n`, the typed part is reset to empty, the
frontier becomes the node's successors, the prediction is rebuilt from
them — and, as the claim states, the allow-n flag is set (with the extra
`'n'` appended to the accepting keys) and the keystroke reports
accepted-continuing (the successor set being non-final and non-empty). -/
theorem c3_amended_candidate_n_advances (g : Graph) (s : KPState)
    (pre post : List PNode) (v : PNode)
    (hnodes : s.now_nodes = pre ++ v :: post)
    (hpre : ∀ u ∈ pre, ['n'] ∉ u.romajis)
    (hn : ['n'] ∈ v.romajis) (hnn : nnStr ∈ v.romajis)
    (hkf : s.keys_for_now_node = [])
    (hallow : s.allow_n = false)
    (hmem : 'n' ∈ s.accepting_keys)
    (hwfsucc : ∀ u ∈ g.succs v, u ≠ endNode ∧ u.romajis ≠ [] ∧
      (∀ a ∈ u.romajis, a ≠ []) ∧ (nxShortestPath g g.fuel u endNode).isSome)
    (hsne : g.succs v ≠ []) :
    ∃ path, find_shortest_path g (g.succs v) = some path ∧
      check_key g s 'n' =
        ((some (s.confirmed_nodes_keys ++ ['n']), some (firstRomajisJoin path.dropLast)),
          { s with confirmed_nodes_keys := s.confirmed_nodes_keys ++ ['n'],
                   keys_for_now_node := [],
                   now_nodes := g.succs v,
                   allow_n := true,
                   accepting_keys := derived_accepting_keys (g.succs v) [] ++ ['n'],
                   assumed_keys := firstRomajisJoin path.dropLast },
          [SoundFx.correct]) ∧
      firstRomajisJoin path.dropLast ≠ [] := by
  have hne_end : g.succs v ≠ [endNode] := by
    intro hcon
    exact (hwfsucc endNode (by rw [hcon]; exact List.mem_singleton_self _)).1 rfl
  obtain ⟨u0, hu0⟩ := List.exists_mem_of_ne_nil _ hsne
  obtain ⟨path, hpath⟩ := fsp_exists hu0 (hwfsucc u0 hu0).2.2.2
  have hfind : s.now_nodes.find? (fun u => decide ((['n'] : Str) ∈ u.romajis)) = some v := by
    rw [hnodes]
    exact find?_pred_first (fun u hu => by simpa using hpre u hu) (by simpa using hn)
  have hjoin_ne : firstRomajisJoin path.dropLast ≠ [] := by
    obtain ⟨src, hsrc, hpof⟩ := fsp_sound hpath
    obtain ⟨t, rfl, ht⟩ := hpof.head_struct
    have hsrc_props := hwfsucc src hsrc
    rw [List.dropLast_cons_of_ne_nil (ht hsrc_props.1)]
    exact firstRomajisJoin_cons_ne hsrc_props.2.1 hsrc_props.2.2.1
  have hs2 : process_dummy_keys g s ['n'] =
      { s with confirmed_nodes_keys := s.confirmed_nodes_keys ++ ['n'],
               keys_for_now_node := [],
               now_nodes := g.succs v,
               allow_n := true,
               accepting_keys := derived_accepting_keys (g.succs v) [] ++ ['n'],
               assumed_keys := firstRomajisJoin path.dropLast } := by
    rw [pdk_exact hfind, if_pos hnn, prepare_ne hne_end, update_accepting_fields]
    dsimp only
    rw [if_pos rfl]
    rw [update_assumed_empty_kfnn rfl (by exact hpath)]
  refine ⟨path, hpath, ?_, hjoin_ne⟩
  simp [check_key, hmem, hallow, hkf, hs2]

theorem c3_amended_candidate_n_advances_witness :
    ((kpInit graphNN).now_nodes = [] ++ nodeN :: [] ∧
      ['n'] ∈ nodeN.romajis ∧ nnStr ∈ nodeN.romajis ∧
      (kpInit graphNN).keys_for_now_node = [] ∧ (kpInit graphNN).allow_n = false ∧
      'n' ∈ (kpInit graphNN).accepting_keys ∧ graphNN.succs nodeN ≠ []) ∧
      ∃ path, find_shortest_path graphNN (graphNN.succs nodeN) = some path ∧
        check_key graphNN (kpInit graphNN) 'n' =
          ((some ((kpInit graphNN).confirmed_nodes_keys ++ ['n']),
              some (firstRomajisJoin path.dropLast)),
            { kpInit graphNN with
                confirmed_nodes_keys := (kpInit graphNN).confirmed_nodes_keys ++ ['n'],
                keys_for_now_node := [],
                now_nodes := graphNN.succs nodeN,
                allow_n := true,
                accepting_keys :=
                  derived_accepting_keys (graphNN.succs nodeN) [] ++ ['n'],
                assumed_keys := firstRomajisJoin path.dropLast },
            [SoundFx.correct]) ∧
        firstRomajisJoin path.dropLast ≠ [] :=
  ⟨⟨by decide, by decide, by decide, by decide, by decide, by decide, by decide⟩,
    c3_amended_candidate_n_advances graphNN (kpInit graphNN) [] [] nodeN
      (by decide) (by intro u hu; simp at hu) (by decide) (by decide) (by decide)
      (by decide) (by decide)
      (by intro u hu; fin_cases hu <;> refine ⟨by decide, by decide, ?_, by decide⟩ <;>
        (intro a ha; fin_cases ha <;> decide))
      (by decide)⟩

theorem single_n_exact_state {g : Graph} {s : KPState} {pre post : List PNode} {v : PNode}
    (hnodes : s.now_nodes = pre ++ v :: post)
    (hpre : ∀ u ∈ pre, ['n'] ∉ u.romajis)
    (hn : ['n'] ∈ v.romajis) (hnn : nnStr ∈ v.romajis)
    (hwfsucc : ∀ u ∈ g.succs v, u ≠ endNode ∧ u.romajis ≠ [] ∧
      (∀ a ∈ u.romajis, a ≠ []) ∧ (nxShortestPath g g.fuel u endNode).isSome)
    (hsne : g.succs v ≠ []) :
    ∃ path, find_shortest_path g (g.succs v) = some path ∧
      process_dummy_keys g s ['n'] =
        { s with confirmed_nodes_keys := s.confirmed_nodes_keys ++ ['n'],
                 keys_for_now_node := [],
                 now_nodes := g.succs v,
                 allow_n := true,
                 accepting_keys := derived_accepting_keys (g.succs v) [] ++ ['n'],
                 assumed_keys := firstRomajisJoin path.dropLast } ∧
      firstRomajisJoin path.dropLast ≠ [] := by
  have hne_end : g.succs v ≠ [endNode] := by
    intro hcon
    exact (hwfsucc endNode (by rw [hcon]; exact List.mem_singleton_self _)).1 rfl
  obtain ⟨u0, hu0⟩ := List.exists_mem_of_ne_nil _ hsne
  obtain ⟨path, hpath⟩ := fsp_exists hu0 (hwfsucc u0 hu0).2.2.2
  have hfind : s.now_nodes.find? (fun u => decide ((['n'] : Str) ∈ u.romajis)) = some v := by
    rw [hnodes]
    exact find?_pred_first (fun u hu => by simpa using hpre u hu) (by simpa using hn)
  have hjoin_ne : firstRomajisJoin path.dropLast ≠ [] := by
    obtain ⟨src, hsrc, hpof⟩ := fsp_sound hpath
    obtain ⟨t, rfl, ht⟩ := hpof.head_struct
    have hsrc_props := hwfsucc src hsrc
    rw [List.dropLast_cons_of_ne_nil (ht hsrc_props.1)]
    exact firstRomajisJoin_cons_ne hsrc_props.2.1 hsrc_props.2.2.1
  refine ⟨path, hpath, ?_, hjoin_ne⟩
  rw [pdk_exact hfind, if_pos hnn, prepare_ne hne_end, update_accepting_fields]
  dsimp only
  rw [if_pos rfl]
  rw [update_assumed_empty_kfnn rfl (by exact hpath)]

/-- C2: with the frontier containing (as the first node carrying an `n`
alternative) a node whose alternative set is exactly the pair `n` / `nn`,
and nothing typed toward it yet: a first `'n'` is accepted as continuing
and leaves the allow-n flag set, with `'n'` appended to `accepting_keys` as
an extra entry beyond the set derived from the (new) frontier; a second
`'n'` is accepted and the confirmed text has grown by `nn` over the two
keystrokes; while any other key acceptable for the successor nodes is,
after the first `'n'`, processed exactly as if the single `n` had completed
the node — matching continues against the successors normally. -/
theorem c2_trailing_n_rule (g : Graph) (s : KPState) (pre post : List PNode) (v : PNode)
    (hnodes : s.now_nodes = pre ++ v :: post)
    (hpre : ∀ u ∈ pre, ['n'] ∉ u.romajis)
    (hset : ∀ a ∈ v.romajis, a = ['n'] ∨ a = nnStr)
    (hn : ['n'] ∈ v.romajis) (hnn : nnStr ∈ v.romajis)
    (hkf : s.keys_for_now_node = [])
    (hallow : s.allow_n = false)
    (hmem : 'n' ∈ s.accepting_keys)
    (hwfsucc : ∀ u ∈ g.succs v, u ≠ endNode ∧ u.romajis ≠ [] ∧
      (∀ a ∈ u.romajis, a ≠ []) ∧ (nxShortestPath g g.fuel u endNode).isSome)
    (hsne : g.succs v ≠ []) :
    ∃ path, find_shortest_path g (g.succs v) = some path ∧
      (resultKind (check_key g s 'n').1 = RKind.cont ∧
        (check_key g s 'n').2.1.allow_n = true ∧
        (check_key g s 'n').2.1.accepting_keys =
          derived_accepting_keys (g.succs v) [] ++ ['n']) ∧
      check_key g (check_key g s 'n').2.1 'n' =
        ((some (s.confirmed_nodes_keys ++ ['n', 'n']),
            some (firstRomajisJoin path.dropLast)),
          { (check_key g s 'n').2.1 with
              allow_n := false,
              accepting_keys := derived_accepting_keys (g.succs v) [],
              confirmed_nodes_keys := s.confirmed_nodes_keys ++ ['n', 'n'] }, []) ∧
      ∀ c : Char, c ≠ 'n' → c ∈ derived_accepting_keys (g.succs v) [] →
        check_key g (check_key g s 'n').2.1 c =
          check_key g
            { (check_key g s 'n').2.1 with
                allow_n := false,
                accepting_keys := derived_accepting_keys (g.succs v) [] } c := by
  obtain ⟨path, hpath, hs2, hjoin⟩ :=
    single_n_exact_state hnodes hpre hn hnn hwfsucc hsne
  have hr1 : check_key g s 'n' =
      ((some (s.confirmed_nodes_keys ++ ['n']), some (firstRomajisJoin path.dropLast)),
        { s with confirmed_nodes_keys := s.confirmed_nodes_keys ++ ['n'],
                 keys_for_now_node := [],
                 now_nodes := g.succs v,
                 allow_n := true,
                 accepting_keys := derived_accepting_keys (g.succs v) [] ++ ['n'],
                 assumed_keys := firstRomajisJoin path.dropLast },
        [SoundFx.correct]) := by
    simp [check_key, hmem, hallow, hkf, hs2]
  refine ⟨path, hpath, ⟨?_, ?_, ?_⟩, ?_, ?_⟩
  · rw [hr1]
    rcases hj : firstRomajisJoin path.dropLast with _ | ⟨c, t⟩
    · exact absurd hj hjoin
    · simp [resultKind]
  · rw [hr1]
  · rw [hr1]
  · rw [hr1]
    have hmem2 : 'n' ∈ derived_accepting_keys (g.succs v) [] ++ ['n'] := by simp
    simp [check_key, hmem2, List.dropLast_concat, List.append_assoc]
  · intro c hc hcd
    rw [hr1]
    have hmemL : c ∈ derived_accepting_keys (g.succs v) [] ++ ['n'] :=
      List.mem_append.mpr (Or.inl hcd)
    have hdne : ([] : Str) ++ [c] ≠ ['n'] := by
      simp only [List.nil_append]
      intro hcon
      exact hc (by injection hcon)
    simp [check_key, hmemL, hcd, List.dropLast_concat, hdne]
    exact hc

theorem c2_trailing_n_rule_witness :
    ((kpInit graphNN).now_nodes = [] ++ nodeN :: [] ∧
      (∀ a ∈ nodeN.romajis, a = ['n'] ∨ a = nnStr) ∧
      ['n'] ∈ nodeN.romajis ∧ nnStr ∈ nodeN.romajis ∧
      (kpInit graphNN).keys_for_now_node = [] ∧ (kpInit graphNN).allow_n = false ∧
      'n' ∈ (kpInit graphNN).accepting_keys ∧ graphNN.succs nodeN ≠ []) ∧
      ∃ path, find_shortest_path graphNN (graphNN.succs nodeN) = some path ∧
        (resultKind (check_key graphNN (kpInit graphNN) 'n').1 = RKind.cont ∧
          (check_key graphNN (kpInit graphNN) 'n').2.1.allow_n = true ∧
          (check_key graphNN (kpInit graphNN) 'n').2.1.accepting_keys =
            derived_accepting_keys (graphNN.succs nodeN) [] ++ ['n']) ∧
        check_key graphNN (check_key graphNN (kpInit graphNN) 'n').2.1 'n' =
          ((some ((kpInit graphNN).confirmed_nodes_keys ++ ['n', 'n']),
              some (firstRomajisJoin path.dropLast)),
            { (check_key graphNN (kpInit graphNN) 'n').2.1 with
                allow_n := false,
                accepting_keys := derived_accepting_keys (graphNN.succs nodeN) [],
                confirmed_nodes_keys := (kpInit graphNN).confirmed_nodes_keys ++ ['n', 'n'] },
            []) ∧
        ∀ c : Char, c ≠ 'n' → c ∈ derived_accepting_keys (graphNN.succs nodeN) [] →
          check_key graphNN (check_key graphNN (kpInit graphNN) 'n').2.1 c =
            check_key graphNN
              { (check_key graphNN (kpInit graphNN) 'n').2.1 with
                  allow_n := false,
                  accepting_keys := derived_accepting_keys (graphNN.succs nodeN) [] } c :=
  ⟨⟨by decide, by decide, by decide, by decide, by decide, by decide, by decide, by decide⟩,
    c2_trailing_n_rule graphNN (kpInit graphNN) [] [] nodeN
      (by decide) (by intro u hu; simp at hu) (by decide) (by decide) (by decide)
      (by decide) (by decide) (by decide) (by decide) (by decide)⟩

/-! ## Lemmas toward the prediction-formula claim -/

theorem mem_succs_inGraph {g : Graph} {w u : PNode} (h : u ∈ g.succs w) :
    inGraphSuccB g u = true := by
  unfold Graph.succs at h
  rcases hf : g.adj.find? (fun e => decide (e.1 = w)) with _ | e
  · rw [hf] at h; simp at h
  · rw [hf] at h
    unfold inGraphSuccB
    rw [List.any_eq_true]
    exact ⟨e, List.mem_of_find?_eq_some hf, by simpa using h⟩

theorem wf_unpack {g : Graph} {u : PNode} (hwf : wfGraphB g = true)
    (hu : inGraphSuccB g u = true) :
    (u = endNode ∨ goodTokB u = true) ∧
      (nxShortestPath g g.fuel u endNode).isSome = true := by
  unfold wfGraphB at hwf
  unfold inGraphSuccB at hu
  rw [List.all_eq_true] at hwf
  rw [List.any_eq_true] at hu
  obtain ⟨e, he, hmem⟩ := hu
  have := List.all_eq_true.mp (hwf e he) u (by simpa using hmem)
  rw [Bool.and_eq_true, Bool.or_eq_true] at this
  refine ⟨?_, this.2⟩
  rcases this.1 with h | h
  · exact Or.inl (by simpa using h)
  · exact Or.inr h

theorem wf_succs_ne_nil {g : Graph} {u : PNode} (hwf : wfGraphB g = true)
    (hu : inGraphSuccB g u = true) (hne : u ≠ endNode) : g.succs u ≠ [] := by
  obtain ⟨_, hsome⟩ := wf_unpack hwf hu
  obtain ⟨p, hp⟩ := Option.isSome_iff_exists.mp hsome
  have hpof := nx_sound hp
  cases hpof with
  | nil => exact absurd rfl hne
  | cons hmem _ => exact List.ne_nil_of_mem hmem

theorem pathof_all_inGraph {g : Graph} {tgt src : PNode} {q : List PNode}
    (h : PathOf g tgt src q) (hsrc : inGraphSuccB g src = true) :
    ∀ x ∈ q, inGraphSuccB g x = true := by
  induction h with
  | nil => intro x hx; rw [List.mem_singleton.mp hx]; exact hsrc
  | @cons v v' p hmem htail ih =>
    intro x hx
    rcases List.mem_cons.mp hx with rfl | hx'
    · exact hsrc
    · exact ih (mem_succs_inGraph hmem) x hx'

theorem fsp_end_singleton (g : Graph) :
    find_shortest_path g [endNode] = some [endNode] := by
  have h1 : nxShortestPath g g.fuel endNode endNode = some [endNode] := by
    unfold Graph.fuel
    rw [nxShortestPath, if_pos rfl]
  unfold find_shortest_path
  simp [pickBest, h1]

theorem ua_fields (g : Graph) (t : KPState) :
    (update_assumed_keys g t).now_nodes = t.now_nodes ∧
      (update_assumed_keys g t).keys_for_now_node = t.keys_for_now_node ∧
      (update_assumed_keys g t).accepting_keys = t.accepting_keys ∧
      (update_assumed_keys g t).confirmed_nodes_keys = t.confirmed_nodes_keys ∧
      (update_assumed_keys g t).allow_n = t.allow_n := by
  rcases hf : find_shortest_path g t.now_nodes with _ | path
  · simp [update_assumed_keys, hf]
  · by_cases hk : t.keys_for_now_node = []
    · simp [update_assumed_keys, hf, hk, build_assumed_keys]
    · rcases hr : (path.headD endNode).romajis.find?
          (fun r => t.keys_for_now_node.isPrefixOf r) with _ | r
      · rw [List.headD_eq_head?] at hr
        simp [update_assumed_keys, hf, hk, hr]
      · rw [List.headD_eq_head?] at hr
        by_cases hre : r = [] <;>
          simp [update_assumed_keys, hf, hk, hr, build_assumed_keys, hre]

theorem update_assumed_some_kfnn {g : Graph} {t : KPState} {path : List PNode} {r : Str}
    (hk : t.keys_for_now_node ≠ [])
    (h1 : find_shortest_path g t.now_nodes = some path)
    (hr : (path.headD endNode).romajis.find?
      (fun a => t.keys_for_now_node.isPrefixOf a) = some r)
    (hne : r ≠ []) :
    update_assumed_keys g t =
      { t with assumed_keys :=
          r.drop t.keys_for_now_node.length ++ firstRomajisJoin ((path.drop 1).dropLast) } := by
  have hr' := hr
  rw [List.headD_eq_head?] at hr'
  simp [update_assumed_keys, h1, hk, hr', build_assumed_keys, hne]

theorem headMinimal_of_sorted {g : Graph} {u : PNode} (hs : sortedAltsB g = true)
    (hu : inGraphSuccB g u = true) : headMinimalB u = true := by
  unfold sortedAltsB at hs
  unfold inGraphSuccB at hu
  rw [List.all_eq_true] at hs
  rw [List.any_eq_true] at hu
  obtain ⟨e, he, hmem⟩ := hu
  exact List.all_eq_true.mp (hs e he) u (by simpa using hmem)

theorem firstRomaji_eq_headD (u : PNode) : u.firstRomaji = u.romajis.headD [] := by
  cases u with
  | se tag k => cases tag <;> rfl
  | tok alts pos => rfl

theorem specShortestAlt_eq_first {u : PNode} (h : headMinimalB u = true) :
    specShortestAlt u = u.firstRomaji := by
  rw [firstRomaji_eq_headD]
  unfold headMinimalB at h
  rw [List.all_eq_true] at h
  have key : ∀ (l : List Str) (b : Str), (∀ r ∈ l, b.length ≤ r.length) →
      l.foldl (fun best r => if r.length < best.length then r else best) b = b := by
    intro l
    induction l with
    | nil => intro b _; rfl
    | cons r t ih =>
      intro b hb
      simp only [List.foldl_cons]
      rw [if_neg (not_lt.mpr (hb r (List.mem_cons_self r t)))]
      exact ih b (fun x hx => hb x (List.mem_cons_of_mem _ hx))
  exact key u.romajis _ (fun r hr => by simpa using h r hr)

theorem map_specShortestAlt_eq_first {g : Graph} (hs : sortedAltsB g = true)
    {l : List PNode} (hl : ∀ u ∈ l, inGraphSuccB g u = true) :
    l.map specShortestAlt = l.map PNode.firstRomaji :=
  List.map_congr_left (fun u hu => specShortestAlt_eq_first (headMinimal_of_sorted hs (hl u hu)))

theorem update_assumed_AOK {g : Graph} {t : KPState} {path : List PNode}
    (hs : sortedAltsB g = true)
    (hfr : ∀ u ∈ t.now_nodes, inGraphSuccB g u = true)
    (h1 : find_shortest_path g t.now_nodes = some path)
    (h2 : t.keys_for_now_node = [] ∨
      ∃ r, (path.headD endNode).romajis.find?
          (fun a => t.keys_for_now_node.isPrefixOf a) = some r ∧ r ≠ []) :
    specPredicted g t.now_nodes t.keys_for_now_node =
      some ((update_assumed_keys g t).assumed_keys) := by
  have hpathGraph : ∀ x ∈ path, inGraphSuccB g x = true := by
    obtain ⟨src, hsrc, hpof⟩ := fsp_sound h1
    exact pathof_all_inGraph hpof (hfr src hsrc)
  by_cases hk : t.keys_for_now_node = []
  · rw [update_assumed_empty_kfnn hk h1]
    unfold specPredicted
    rw [h1]
    dsimp only
    rw [if_pos hk]
    have hmapeq := map_specShortestAlt_eq_first hs
      (fun u hu => hpathGraph u (List.dropLast_subset path hu))
    simp [firstRomajisJoin, hmapeq]
  · rcases h2 with h2 | ⟨r, hr, hrne⟩
    · exact absurd h2 hk
    · rw [update_assumed_some_kfnn hk h1 hr hrne]
      unfold specPredicted
      rw [h1]
      dsimp only
      rw [if_neg hk, hr]
      have hmapeq := map_specShortestAlt_eq_first hs
        (fun u hu => hpathGraph u
          (List.drop_subset 1 path (List.dropLast_subset _ hu)))
      simp only [List.drop_one] at hmapeq
      simp [firstRomajisJoin, ← List.map_tail, ← List.map_dropLast, hmapeq]

theorem exact_advance_state {g : Graph} {t : KPState} {dummy : Str} {v : PNode}
    {path : List PNode}
    (hfind : t.now_nodes.find? (fun u => decide (dummy ∈ u.romajis)) = some v)
    (hsvne : g.succs v ≠ [endNode])
    (hfsp : find_shortest_path g (g.succs v) = some path) :
    process_dummy_keys g t dummy =
      { t with confirmed_nodes_keys := t.confirmed_nodes_keys ++ dummy,
               keys_for_now_node := [],
               now_nodes := g.succs v,
               allow_n := (decide (nnStr ∈ v.romajis) || t.allow_n),
               accepting_keys :=
                 if (decide (nnStr ∈ v.romajis) || t.allow_n) = true then
                   derived_accepting_keys (g.succs v) [] ++ ['n']
                 else derived_accepting_keys (g.succs v) [],
               assumed_keys := firstRomajisJoin path.dropLast } := by
  rw [pdk_exact hfind]
  by_cases hnn : nnStr ∈ v.romajis
  · rw [if_pos hnn, prepare_ne hsvne, update_accepting_fields]
    dsimp only
    rw [if_pos rfl, update_assumed_empty_kfnn rfl hfsp]
    simp [hnn]
  · rw [if_neg hnn, prepare_ne hsvne, update_accepting_fields]
    dsimp only
    rw [update_assumed_empty_kfnn rfl hfsp]
    simp [hnn]

theorem exact_final_assumed_nil {g : Graph} {t : KPState} {dummy : Str} {v : PNode}
    (hfind : t.now_nodes.find? (fun u => decide (dummy ∈ u.romajis)) = some v)
    (hsv : g.succs v = [endNode]) :
    (process_dummy_keys g t dummy).assumed_keys = [] := by
  rw [pdk_exact hfind]
  have hprep : ∀ sa : KPState, prepare_for_next_nodes g sa dummy v =
      { sa with confirmed_nodes_keys := sa.confirmed_nodes_keys ++ dummy,
                now_nodes := [endNode], assumed_keys := [], keys_for_now_node := [] } := by
    intro sa
    simp [prepare_for_next_nodes, update_now_nodes, hsv]
  by_cases hnn : nnStr ∈ v.romajis
  · rw [if_pos hnn, hprep, update_accepting_fields]
    dsimp only
    rw [if_pos rfl, update_assumed_empty_kfnn rfl (fsp_end_singleton g)]
    rfl
  · rw [if_neg hnn, hprep, update_accepting_fields]
    dsimp only
    rw [update_assumed_empty_kfnn rfl (fsp_end_singleton g)]
    rfl

theorem pdk_preserves_AOK {g : Graph} {t : KPState} {dummy : Str}
    (hwf : wfGraphB g = true) (hs : sortedAltsB g = true)
    (hfr : ∀ u ∈ t.now_nodes, inGraphSuccB g u = true)
    (hnoend : endNode ∉ t.now_nodes)
    (hAOK : specPredicted g t.now_nodes t.keys_for_now_node = some t.assumed_keys)
    (hd : dummy ≠ [])
    (hcont : (process_dummy_keys g t dummy).assumed_keys ≠ []) :
    specPredicted g (process_dummy_keys g t dummy).now_nodes
        (process_dummy_keys g t dummy).keys_for_now_node =
      some ((process_dummy_keys g t dummy).assumed_keys) ∧
    ∀ u ∈ (process_dummy_keys g t dummy).now_nodes, inGraphSuccB g u = true := by
  rcases hfind : t.now_nodes.find? (fun u => decide (dummy ∈ u.romajis)) with _ | v
  · by_cases hkept :
        (t.now_nodes.filter (fun u => u.romajis.any (fun r => dummy.isPrefixOf r))).isEmpty
    · -- no exact match, nothing still in progress: the frontier is left unchanged
      have hpdk : process_dummy_keys g t dummy =
          update_assumed_keys g (update_accepting_keys t) := by
        simp only [process_dummy_keys, hfind]
        rw [if_pos hkept]
      rcases hf : find_shortest_path g t.now_nodes with _ | path
      · unfold specPredicted at hAOK
        rw [hf] at hAOK
        simp at hAOK
      · have h2 : t.keys_for_now_node = [] ∨
            ∃ r, (path.headD endNode).romajis.find?
                (fun a => t.keys_for_now_node.isPrefixOf a) = some r ∧ r ≠ [] := by
          by_cases hk : t.keys_for_now_node = []
          · exact Or.inl hk
          · unfold specPredicted at hAOK
            rw [hf] at hAOK
            dsimp only at hAOK
            rw [if_neg hk] at hAOK
            rcases hr : (path.headD endNode).romajis.find?
                (fun a => t.keys_for_now_node.isPrefixOf a) with _ | r
            · rw [hr] at hAOK; simp at hAOK
            · refine Or.inr ⟨r, by simp [hr], ?_⟩
              intro hre
              have hp := List.find?_some hr
              rw [hre] at hp
              exact hk (List.prefix_nil.mp (List.isPrefixOf_iff_prefix.mp hp))
        have huaf := ua_fields g (update_accepting_keys t)
        have hcover := update_assumed_AOK (t := update_accepting_keys t) hs
          (by rw [update_accepting_fields]; exact hfr)
          (by rw [update_accepting_fields]; exact hf)
          (by rw [update_accepting_fields]; exact h2)
        rw [update_accepting_fields] at hcover
        dsimp only at hcover huaf
        rw [hpdk]
        constructor
        · rw [huaf.1, huaf.2.1]
          rw [update_accepting_fields] at huaf ⊢
          dsimp only at huaf ⊢
          exact hcover
        · rw [huaf.1]
          rw [update_accepting_fields]
          dsimp only
          exact hfr
    · -- still-in-progress nodes collected: frontier shrinks, typed part grows
      have hkne :
          t.now_nodes.filter (fun u => u.romajis.any (fun r => dummy.isPrefixOf r)) ≠ [] := by
        intro hc
        rw [hc] at hkept
        exact hkept rfl
      have hpdk := pdk_keep (g := g) hfind hkne
      obtain ⟨u0, hu0⟩ := List.exists_mem_of_ne_nil _ hkne
      have hu0now := List.mem_of_mem_filter hu0
      obtain ⟨path, hf⟩ := fsp_exists hu0 (wf_unpack hwf (hfr u0 hu0now)).2
      obtain ⟨src, hsrc, hpof⟩ := fsp_sound hf
      obtain ⟨tl, hpatheq, htl⟩ := hpof.head_struct
      subst hpatheq
      have hsrcpred := (List.mem_filter.mp hsrc).2
      rw [List.any_eq_true] at hsrcpred
      obtain ⟨r1, hr1mem, hr1pre⟩ := hsrcpred
      have hfindsome :
          (((src :: tl).headD endNode).romajis.find? (fun a => dummy.isPrefixOf a)).isSome := by
        rw [List.headD_cons, List.find?_isSome]
        exact ⟨r1, hr1mem, hr1pre⟩
      obtain ⟨r0, hr0⟩ := Option.isSome_iff_exists.mp hfindsome
      have hr0pre := List.find?_some hr0
      have hr0ne : r0 ≠ [] := by
        intro hc
        rw [hc] at hr0pre
        exact hd (List.prefix_nil.mp (List.isPrefixOf_iff_prefix.mp hr0pre))
      have hfr2 : ∀ u ∈ (update_accepting_keys (process_for_now_nodes t dummy
          (t.now_nodes.filter (fun u => u.romajis.any (fun r => dummy.isPrefixOf r))))).now_nodes,
          inGraphSuccB g u = true := by
        rw [update_accepting_fields]
        intro u hu
        exact hfr u (List.mem_of_mem_filter hu)
      have hcover := update_assumed_AOK
        (t := update_accepting_keys (process_for_now_nodes t dummy
          (t.now_nodes.filter (fun u => u.romajis.any (fun r => dummy.isPrefixOf r)))))
        hs hfr2
        (by rw [update_accepting_fields]; exact hf)
        (Or.inr ⟨r0, by rw [update_accepting_fields]; exact hr0, hr0ne⟩)
      have huaf := ua_fields g (update_accepting_keys (process_for_now_nodes t dummy
        (t.now_nodes.filter (fun u => u.romajis.any (fun r => dummy.isPrefixOf r)))))
      rw [hpdk]
      constructor
      · rw [huaf.1, huaf.2.1]
        exact hcover
      · rw [huaf.1]
        rw [update_accepting_fields]
        intro u hu
        exact hfr u (List.mem_of_mem_filter hu)
  · have hvmem := List.mem_of_find?_eq_some hfind
    have hvne : v ≠ endNode := fun hc => hnoend (hc ▸ hvmem)
    have hsne : g.succs v ≠ [] := wf_succs_ne_nil hwf (hfr v hvmem) hvne
    by_cases hsv : g.succs v = [endNode]
    · exact absurd (exact_final_assumed_nil hfind hsv) hcont
    · obtain ⟨u0, hu0⟩ := List.exists_mem_of_ne_nil _ hsne
      obtain ⟨path, hf⟩ := fsp_exists hu0 (wf_unpack hwf (mem_succs_inGraph hu0)).2
      rw [exact_advance_state hfind hsv hf]
      constructor
      · dsimp only
        unfold specPredicted
        rw [hf]
        dsimp only
        rw [if_pos rfl]
        obtain ⟨src, hsrc, hpof⟩ := fsp_sound hf
        have hmapeq := map_specShortestAlt_eq_first hs
          (fun u hu => pathof_all_inGraph hpof (mem_succs_inGraph hsrc) u
            (List.dropLast_subset path hu))
        simp [firstRomajisJoin, hmapeq]
      · dsimp only
        intro u hu
        exact mem_succs_inGraph hu

/-- C4: after every accepted keystroke that leaves the word incomplete, the
predicted continuation equals the spec formula `specPredicted`: the
alternative of the chosen frontier node on the chosen shortest
frontier-to-end path that starts with the typed part, with the typed part
stripped, concatenated with the single shortest alternative spelling of
every subsequent node of that path up to (excluding) the end node — and the
chosen path is genuinely shortest: no duplicate-free successor path from
any frontier node to the end node is shorter.  Stated as preservation of
the prediction-formula invariant over one accepted keystroke (the
hypotheses say the pre-state satisfies it, holds a mid-word frontier of
graph nodes, and the graph is well-formed with shortest-first alternative
lists, the latter modelled from the spec since the graph builder is not
part of the sources). -/
theorem c4_prediction_formula (g : Graph) (s : KPState) (key : Char)
    (hwf : wfGraphB g = true)
    (hsorted : sortedAltsB g = true)
    (hfr : ∀ u ∈ s.now_nodes, inGraphSuccB g u = true)
    (hnoend : endNode ∉ s.now_nodes)
    (hAOK : specPredicted g s.now_nodes s.keys_for_now_node = some s.assumed_keys)
    (cf ak : Str) (s' : KPState) (snd : List SoundFx)
    (hrun : check_key g s key = ((some cf, some ak), s', snd))
    (hcont : ak ≠ []) :
    (specPredicted g s'.now_nodes s'.keys_for_now_node = some s'.assumed_keys ∧
      ∀ u ∈ s'.now_nodes, inGraphSuccB g u = true) ∧
    ∀ path, find_shortest_path g s'.now_nodes = some path →
      ∀ src q, src ∈ s'.now_nodes → PathOf g endNode src q → q.Nodup →
        path.length ≤ q.length := by
  have hmin : ∀ path, find_shortest_path g s'.now_nodes = some path →
      ∀ src q, src ∈ s'.now_nodes → PathOf g endNode src q → q.Nodup →
        path.length ≤ q.length := by
    intro path hp src q hsrc hq hnd
    obtain ⟨r, hr, hrle⟩ := fsp_min hsrc hq hnd
    rw [hp] at hr
    rw [Option.some.inj hr]
    exact hrle
  refine ⟨?_, hmin⟩
  have hmem : key ∈ s.accepting_keys := by
    by_contra hmemn
    simp [check_key, hmemn] at hrun
  by_cases ha : s.allow_n = true
  · by_cases hd : s.keys_for_now_node ++ [key] = ['n']
    · have hck : check_key g s key =
          ((some (s.confirmed_nodes_keys ++ ['n']), some s.assumed_keys),
            { s with allow_n := false, accepting_keys := s.accepting_keys.dropLast,
                     confirmed_nodes_keys := s.confirmed_nodes_keys ++ ['n'] }, []) := by
        simp [check_key, hmem, ha, hd]
      rw [hck] at hrun
      simp only [Prod.mk.injEq] at hrun
      obtain ⟨⟨hcf, hak⟩, hs', hsnd⟩ := hrun
      subst hs'
      exact ⟨hAOK, hfr⟩
    · have hck : check_key g s key =
          ((some ((process_dummy_keys g
                { s with allow_n := false,
                         accepting_keys := s.accepting_keys.dropLast }
                (s.keys_for_now_node ++ [key])).confirmed_nodes_keys ++
              (process_dummy_keys g
                { s with allow_n := false,
                         accepting_keys := s.accepting_keys.dropLast }
                (s.keys_for_now_node ++ [key])).keys_for_now_node),
            some (process_dummy_keys g
                { s with allow_n := false,
                         accepting_keys := s.accepting_keys.dropLast }
                (s.keys_for_now_node ++ [key])).assumed_keys),
            process_dummy_keys g
              { s with allow_n := false,
                       accepting_keys := s.accepting_keys.dropLast }
              (s.keys_for_now_node ++ [key]), [SoundFx.correct]) := by
        simp [check_key, hmem, ha, hd]
      rw [hck] at hrun
      simp only [Prod.mk.injEq] at hrun
      obtain ⟨⟨hcf, hak⟩, hs', hsnd⟩ := hrun
      subst hs'
      have hak' : (process_dummy_keys g
          { s with allow_n := false, accepting_keys := s.accepting_keys.dropLast }
          (s.keys_for_now_node ++ [key])).assumed_keys ≠ [] := by
        rw [Option.some.inj hak]; exact hcont
      exact pdk_preserves_AOK hwf hsorted hfr hnoend hAOK (by simp) hak'
  · have hck : check_key g s key =
        ((some ((process_dummy_keys g s (s.keys_for_now_node ++ [key])).confirmed_nodes_keys ++
            (process_dummy_keys g s (s.keys_for_now_node ++ [key])).keys_for_now_node),
          some (process_dummy_keys g s (s.keys_for_now_node ++ [key])).assumed_keys),
          process_dummy_keys g s (s.keys_for_now_node ++ [key]), [SoundFx.correct]) := by
      simp [check_key, hmem, ha]
    rw [hck] at hrun
    simp only [Prod.mk.injEq] at hrun
    obtain ⟨⟨hcf, hak⟩, hs', hsnd⟩ := hrun
    subst hs'
    have hak' : (process_dummy_keys g s (s.keys_for_now_node ++ [key])).assumed_keys ≠ [] := by
      rw [Option.some.inj hak]; exact hcont
    exact pdk_preserves_AOK hwf hsorted hfr hnoend hAOK (by simp) hak'

theorem c4_prediction_formula_witness :
    (wfGraphB graphAI = true ∧ sortedAltsB graphAI = true ∧
      (∀ u ∈ (kpInit graphAI).now_nodes, inGraphSuccB graphAI u = true) ∧
      endNode ∉ (kpInit graphAI).now_nodes ∧
      specPredicted graphAI (kpInit graphAI).now_nodes (kpInit graphAI).keys_for_now_node =
        some (kpInit graphAI).assumed_keys ∧
      check_key graphAI (kpInit graphAI) 'a' =
        ((some ['a'], some ['i']), (check_key graphAI (kpInit graphAI) 'a').2.1,
          [SoundFx.correct]) ∧
      (['i'] : Str) ≠ []) ∧
    (specPredicted graphAI (check_key graphAI (kpInit graphAI) 'a').2.1.now_nodes
          (check_key graphAI (kpInit graphAI) 'a').2.1.keys_for_now_node =
        some (check_key graphAI (kpInit graphAI) 'a').2.1.assumed_keys ∧
      ∀ u ∈ (check_key graphAI (kpInit graphAI) 'a').2.1.now_nodes,
        inGraphSuccB graphAI u = true) ∧
    ∀ path, find_shortest_path graphAI
        (check_key graphAI (kpInit graphAI) 'a').2.1.now_nodes = some path →
      ∀ src q, src ∈ (check_key graphAI (kpInit graphAI) 'a').2.1.now_nodes →
        PathOf graphAI endNode src q → q.Nodup → path.length ≤ q.length :=
  ⟨⟨by decide, by decide, by decide, by decide, by decide, by decide, by decide⟩,
    c4_prediction_formula graphAI (kpInit graphAI) 'a' (by decide) (by decide) (by decide)
      (by decide) (by decide) ['a'] ['i'] (check_key graphAI (kpInit graphAI) 'a').2.1
      [SoundFx.correct] (by decide) (by decide)⟩

/-! ## Lemmas toward the full-path typing claim -/

theorem prefix_free_at {g : Graph} (hpf : prefixFreeB g = true) {w u v' : PNode}
    {a b : Str} (hu : u ∈ g.succs w) (hv : v' ∈ g.succs w)
    (hune : u ≠ endNode) (hvne : v' ≠ endNode)
    (ha : a ∈ u.romajis) (hb : b ∈ v'.romajis) (hab : a <+: b) : u = v' ∧ a = b := by
  unfold Graph.succs at hu hv
  rcases hf : g.adj.find? (fun e => decide (e.1 = w)) with _ | e
  · rw [hf] at hu; simp at hu
  · rw [hf] at hu hv
    unfold prefixFreeB at hpf
    rw [List.all_eq_true] at hpf
    have h1 := List.all_eq_true.mp (hpf e (List.mem_of_find?_eq_some hf)) u hu
    have h2 := List.all_eq_true.mp h1 v' hv
    rw [Bool.or_eq_true, Bool.or_eq_true] at h2
    rcases h2 with (hc | hc) | hc
    · exact absurd (of_decide_eq_true hc) hune
    · exact absurd (of_decide_eq_true hc) hvne
    · have h3 := List.all_eq_true.mp (List.all_eq_true.mp hc a ha) b hb
      rw [Bool.or_eq_true] at h3
      rcases h3 with hc' | hc'
      · rw [Bool.not_eq_true'] at hc'
        exact absurd (List.isPrefixOf_iff_prefix.mpr hab) (by simp [hc'])
      · rw [Bool.and_eq_true] at hc'
        exact ⟨of_decide_eq_true hc'.1, of_decide_eq_true hc'.2⟩

theorem goodTok_unpack {u : PNode} (h : goodTokB u = true) :
    u.romajis ≠ [] ∧ ∀ a ∈ u.romajis, a ≠ [] := by
  cases u with
  | se tag k => simp [goodTokB] at h
  | tok alts pos =>
    rw [goodTokB, Bool.and_eq_true] at h
    refine ⟨?_, ?_⟩
    · simpa [PNode.romajis, List.isEmpty_iff] using h.1
    · intro a ha
      have := List.all_eq_true.mp h.2 a (by simpa [PNode.romajis] using ha)
      simpa [List.isEmpty_iff] using this

theorem wf_good_of_succ {g : Graph} {w u : PNode} (hwf : wfGraphB g = true)
    (hu : u ∈ g.succs w) (hune : u ≠ endNode) :
    u.romajis ≠ [] ∧ ∀ a ∈ u.romajis, a ≠ [] := by
  rcases (wf_unpack hwf (mem_succs_inGraph hu)).1 with h | h
  · exact absurd h hune
  · exact goodTok_unpack h

theorem find?_eq_of_unique {α : Type} {p : α → Bool} {l : List α} {v : α}
    (hv : v ∈ l) (hpv : p v = true) (huniq : ∀ u ∈ l, p u = true → u = v) :
    l.find? p = some v := by
  induction l with
  | nil => cases hv
  | cons x xs ih =>
    by_cases hx : p x = true
    · rw [List.find?_cons_of_pos _ hx, huniq x (List.mem_cons_self x xs) hx]
    · rw [List.find?_cons_of_neg _ hx]
      refine ih ?_ (fun u hu hup => huniq u (List.mem_cons_of_mem _ hu) hup)
      rcases List.mem_cons.mp hv with rfl | h
      · exact absurd hpv hx
      · exact h

theorem exact_advance_end {g : Graph} {t : KPState} {dummy : Str} {v : PNode}
    (hfind : t.now_nodes.find? (fun u => decide (dummy ∈ u.romajis)) = some v)
    (hsv : g.succs v = [endNode]) :
    process_dummy_keys g t dummy =
      { t with confirmed_nodes_keys := t.confirmed_nodes_keys ++ dummy,
               keys_for_now_node := [],
               now_nodes := g.succs v,
               allow_n := (decide (nnStr ∈ v.romajis) || t.allow_n),
               accepting_keys :=
                 if (decide (nnStr ∈ v.romajis) || t.allow_n) = true then
                   derived_accepting_keys (g.succs v) [] ++ ['n']
                 else derived_accepting_keys (g.succs v) [],
               assumed_keys := [] } := by
  rw [pdk_exact hfind]
  have hprep : ∀ sa : KPState, prepare_for_next_nodes g sa dummy v =
      { sa with confirmed_nodes_keys := sa.confirmed_nodes_keys ++ dummy,
                now_nodes := [endNode], assumed_keys := [], keys_for_now_node := [] } := by
    intro sa
    simp [prepare_for_next_nodes, update_now_nodes, hsv]
  by_cases hnn : nnStr ∈ v.romajis
  · rw [if_pos hnn, hprep, update_accepting_fields]
    dsimp only
    rw [if_pos rfl, update_assumed_empty_kfnn rfl (fsp_end_singleton g)]
    simp [hnn, hsv, firstRomajisJoin]
  · rw [if_neg hnn, hprep, update_accepting_fields]
    dsimp only
    rw [update_assumed_empty_kfnn rfl (fsp_end_singleton g)]
    simp [hnn, hsv, firstRomajisJoin]

theorem keep_state {g : Graph} {t : KPState} {dummy : Str} {path : List PNode} {r₀ : Str}
    (hfind : t.now_nodes.find? (fun u => decide (dummy ∈ u.romajis)) = none)
    (hkne : t.now_nodes.filter (fun u => u.romajis.any (fun r => dummy.isPrefixOf r)) ≠ [])
    (hd : dummy ≠ [])
    (hfsp : find_shortest_path g
      (t.now_nodes.filter (fun u => u.romajis.any (fun r => dummy.isPrefixOf r))) = some path)
    (hr : (path.headD endNode).romajis.find? (fun a => dummy.isPrefixOf a) = some r₀)
    (hrne : r₀ ≠ []) :
    process_dummy_keys g t dummy =
      { t with keys_for_now_node := dummy,
               now_nodes :=
                 t.now_nodes.filter (fun u => u.romajis.any (fun r => dummy.isPrefixOf r)),
               accepting_keys :=
                 if t.allow_n = true then
                   derived_accepting_keys
                     (t.now_nodes.filter (fun u => u.romajis.any (fun r => dummy.isPrefixOf r)))
                     dummy ++ ['n']
                 else
                   derived_accepting_keys
                     (t.now_nodes.filter (fun u => u.romajis.any (fun r => dummy.isPrefixOf r)))
                     dummy,
               assumed_keys :=
                 r₀.drop dummy.length ++ firstRomajisJoin ((path.drop 1).dropLast) } := by
  rw [pdk_keep hfind hkne]
  unfold process_for_now_nodes
  rw [update_accepting_fields]
  dsimp only
  rw [update_assumed_some_kfnn hd hfsp hr hrne]

theorem runKeys_append (g : Graph) (s : KPState) (ks1 ks2 : List Char) :
    runKeys g s (ks1 ++ ks2) =
      ((runKeys g s ks1).1 ++ (runKeys g (runKeys g s ks1).2 ks2).1,
        (runKeys g (runKeys g s ks1).2 ks2).2) := by
  induction ks1 generalizing s with
  | nil => simp [runKeys]
  | cons k ks ih => simp [runKeys, ih]

theorem kpInit_fields (g : Graph) :
    (kpInit g).keys_for_now_node = [] ∧ (kpInit g).confirmed_nodes_keys = [] ∧
      (kpInit g).now_nodes = g.succs startNode ∧ (kpInit g).allow_n = false ∧
      (kpInit g).accepting_keys = derived_accepting_keys (g.succs startNode) [] := by
  unfold kpInit
  rw [update_accepting_fields]
  have h := ua_fields g
    { keys_for_now_node := [], confirmed_nodes_keys := [],
      now_nodes := g.succs startNode, assumed_keys := [],
      allow_n := false, accepting_keys := [] }
  refine ⟨by simp [h.2.1], by simp [h.2.2.2.1], by simp [h.1], by simp [h.2.2.2.2], ?_⟩
  simp [h.1, h.2.1, h.2.2.2.2]

theorem run_alt_core {g : Graph} (hwf : wfGraphB g = true) (hpf : prefixFreeB g = true) :
    ∀ (cs done : Str) (prevNode v : PNode) (a C : Str) (s : KPState),
    cs ≠ [] → a = done ++ cs → a ∈ v.romajis →
    s.keys_for_now_node = done → s.confirmed_nodes_keys = C →
    (∀ u ∈ s.now_nodes, u ∈ g.succs prevNode) → v ∈ s.now_nodes →
    endNode ∉ g.succs prevNode →
    s.allow_n = false →
    s.accepting_keys = derived_accepting_keys s.now_nodes done →
    (g.succs v = [endNode] ∨ (endNode ∉ g.succs v ∧ g.succs v ≠ [])) →
    ∃ rs A,
      runKeys g s cs =
        (rs, { keys_for_now_node := [], confirmed_nodes_keys := C ++ a,
               now_nodes := g.succs v, assumed_keys := A,
               allow_n := decide (nnStr ∈ v.romajis),
               accepting_keys :=
                 if decide (nnStr ∈ v.romajis) = true then
                   derived_accepting_keys (g.succs v) [] ++ ['n']
                 else derived_accepting_keys (g.succs v) [] }) ∧
      rs.map resultKind = List.replicate (cs.length - 1) RKind.cont ++
        [if g.succs v = [endNode] then RKind.complete else RKind.cont] ∧
      (g.succs v = [endNode] → A = []) ∧ (g.succs v ≠ [endNode] → A ≠ []) := by
  intro cs
  induction cs with
  | nil => intro done prevNode v a C s hne; exact absurd rfl hne
  | cons c cs' ih =>
    intro done prevNode v a C s hne ha hav hkf hconf hnow hvmem hnoend hallow hacc hnext
    have hvin : v ∈ g.succs prevNode := hnow v hvmem
    have hvne : v ≠ endNode := fun hc => hnoend (hc ▸ hvin)
    have hpre : done.isPrefixOf a = true :=
      List.isPrefixOf_iff_prefix.mpr (by rw [ha]; exact List.prefix_append done (c :: cs'))
    have hgetd : a.getD done.length '?' = c := by rw [ha]; exact getD_append_length '?'
    have hmemd : c ∈ derived_accepting_keys s.now_nodes done := by
      rw [← hgetd]; exact mem_derived_accepting hvmem hav hpre
    have hmem : c ∈ s.accepting_keys := by rw [hacc]; exact hmemd
    have hck : check_key g s c =
        ((some ((process_dummy_keys g s (done ++ [c])).confirmed_nodes_keys ++
            (process_dummy_keys g s (done ++ [c])).keys_for_now_node),
          some (process_dummy_keys g s (done ++ [c])).assumed_keys),
          process_dummy_keys g s (done ++ [c]), [SoundFx.correct]) := by
      simp [check_key, hmem, hallow, hkf]
    have hrunsplit : runKeys g s (c :: cs') =
        ((check_key g s c).1 :: (runKeys g (check_key g s c).2.1 cs').1,
          (runKeys g (check_key g s c).2.1 cs').2) := by
      simp [runKeys]
    by_cases hlast : cs' = []
    · subst hlast
      have hfind : s.now_nodes.find? (fun u => decide ((done ++ [c]) ∈ u.romajis)) = some v := by
        apply find?_eq_of_unique hvmem
        · rw [decide_eq_true_iff, ← ha]; exact hav
        · intro u hu hup
          exact (prefix_free_at hpf (hnow u hu) hvin
            (fun hc => hnoend (hc ▸ hnow u hu)) hvne
            (of_decide_eq_true hup) hav (by rw [ha])).1
      rcases hnext with hfin | ⟨hnend, hnnil⟩
      · have hstate := exact_advance_end (g := g) hfind hfin
        refine ⟨[(check_key g s c).1], [], ?_, ?_, fun _ => rfl, fun hcon => absurd hfin hcon⟩
        · rw [hrunsplit, hck]
          dsimp only
          rw [hstate]
          simp [runKeys, hallow, hconf, ha]
        · rw [hck]
          dsimp only
          rw [hstate]
          simp [resultKind, hfin]
      · obtain ⟨u0, hu0⟩ := List.exists_mem_of_ne_nil _ hnnil
        obtain ⟨path, hfsp⟩ := fsp_exists hu0 (wf_unpack hwf (mem_succs_inGraph hu0)).2
        have hsvne : g.succs v ≠ [endNode] := by
          intro hc; exact hnend (by rw [hc]; exact List.mem_singleton_self _)
        have hstate := exact_advance_state (g := g) hfind hsvne hfsp
        have hAne : firstRomajisJoin path.dropLast ≠ [] := by
          obtain ⟨src, hsrc, hpof⟩ := fsp_sound hfsp
          obtain ⟨tl, hpeq, htl⟩ := hpof.head_struct
          subst hpeq
          have hsrcne : src ≠ endNode := fun hc => hnend (hc ▸ hsrc)
          have hprops := wf_good_of_succ hwf hsrc hsrcne
          rw [List.dropLast_cons_of_ne_nil (htl hsrcne)]
          exact firstRomajisJoin_cons_ne hprops.1 hprops.2
        refine ⟨[(check_key g s c).1], firstRomajisJoin path.dropLast, ?_, ?_,
          fun hcon => absurd hcon hsvne, fun _ => hAne⟩
        · rw [hrunsplit, hck]
          dsimp only
          rw [hstate]
          simp [runKeys, hallow, hconf, ha]
        · rw [hck]
          dsimp only
          rw [hstate]
          rcases hj : firstRomajisJoin path.dropLast with _ | ⟨x, xs⟩
          · exact absurd hj hAne
          · simp [resultKind, hsvne]
    · have hlenea : (done ++ [c]).length ≠ a.length := by
        have h1 : (done ++ [c]).length = done.length + 1 := by simp
        have h2 : a.length = done.length + 1 + cs'.length := by rw [ha]; simp; omega
        have hpos : 0 < cs'.length := List.length_pos.mpr hlast
        omega
      have hdnea : done ++ [c] ≠ a := fun hc => hlenea (by rw [hc])
      have hprefa : (done ++ [c]) <+: a := by
        rw [ha, show done ++ c :: cs' = (done ++ [c]) ++ cs' from by simp]
        exact List.prefix_append _ _
      have hfind : s.now_nodes.find? (fun u => decide ((done ++ [c]) ∈ u.romajis)) = none := by
        rw [List.find?_eq_none]
        intro u hu hup
        exact hdnea (prefix_free_at hpf (hnow u hu) hvin
          (fun hc => hnoend (hc ▸ hnow u hu)) hvne
          (of_decide_eq_true hup) hav hprefa).2
      have hvkept : v ∈ s.now_nodes.filter
          (fun u => u.romajis.any (fun r => (done ++ [c]).isPrefixOf r)) := by
        rw [List.mem_filter]
        refine ⟨hvmem, ?_⟩
        rw [List.any_eq_true]
        exact ⟨a, hav, List.isPrefixOf_iff_prefix.mpr hprefa⟩
      have hkne := List.ne_nil_of_mem hvkept
      obtain ⟨path, hfsp⟩ := fsp_exists hvkept (wf_unpack hwf (mem_succs_inGraph hvin)).2
      obtain ⟨src, hsrc, hpof⟩ := fsp_sound hfsp
      obtain ⟨tl, hpeq, htl⟩ := hpof.head_struct
      subst hpeq
      have hsrcnow := List.mem_of_mem_filter hsrc
      have hsrcpred := (List.mem_filter.mp hsrc).2
      rw [List.any_eq_true] at hsrcpred
      obtain ⟨r1, hr1mem, hr1pre⟩ := hsrcpred
      have hfindsome :
          (((src :: tl).headD endNode).romajis.find?
            (fun x => (done ++ [c]).isPrefixOf x)).isSome := by
        rw [List.headD_cons, List.find?_isSome]
        exact ⟨r1, hr1mem, hr1pre⟩
      obtain ⟨r₀, hr₀⟩ := Option.isSome_iff_exists.mp hfindsome
      have hr₀mem : r₀ ∈ src.romajis := by
        have := List.mem_of_find?_eq_some hr₀
        simpa [List.headD_cons] using this
      have hr₀pre : (done ++ [c]) <+: r₀ :=
        List.isPrefixOf_iff_prefix.mp (List.find?_some hr₀)
      have hr₀nea : r₀ ≠ done ++ [c] := by
        intro hc
        subst hc
        exact hdnea (prefix_free_at hpf (hnow src hsrcnow) hvin
          (fun hc2 => hnoend (hc2 ▸ hnow src hsrcnow)) hvne hr₀mem hav hprefa).2
      have hr₀ne : r₀ ≠ [] := by
        intro hc
        rw [hc] at hr₀pre
        exact (by simp : (done ++ [c]) ≠ ([] : Str)) (List.prefix_nil.mp hr₀pre)
      have hr₀lt : (done ++ [c]).length < r₀.length := by
        rcases Nat.lt_or_ge (done ++ [c]).length r₀.length with h | h
        · exact h
        · exact absurd (List.IsPrefix.eq_of_length hr₀pre
            (Nat.le_antisymm hr₀pre.length_le h)).symm hr₀nea
      have hAne : r₀.drop (done ++ [c]).length ++
          firstRomajisJoin (((src :: tl).drop 1).dropLast) ≠ [] := by
        have hlen : (r₀.drop (done ++ [c]).length).length =
            r₀.length - (done ++ [c]).length := List.length_drop _ _
        intro hc
        have h1 := (List.append_eq_nil.mp hc).1
        rw [h1] at hlen
        simp only [List.length_nil] at hlen
        omega
      have hstate := keep_state (g := g) hfind hkne (by simp) hfsp
        (by rw [List.headD_cons]; exact hr₀) hr₀ne
      obtain ⟨rs', A, hrun', hkinds', hA1, hA2⟩ := ih (done ++ [c]) prevNode v a C
        { s with keys_for_now_node := done ++ [c],
                 now_nodes := s.now_nodes.filter
                   (fun u => u.romajis.any (fun r => (done ++ [c]).isPrefixOf r)),
                 accepting_keys :=
                   if s.allow_n = true then
                     derived_accepting_keys
                       (s.now_nodes.filter
                         (fun u => u.romajis.any (fun r => (done ++ [c]).isPrefixOf r)))
                       (done ++ [c]) ++ ['n']
                   else
                     derived_accepting_keys
                       (s.now_nodes.filter
                         (fun u => u.romajis.any (fun r => (done ++ [c]).isPrefixOf r)))
                       (done ++ [c]),
                 assumed_keys :=
                   r₀.drop (done ++ [c]).length ++
                     firstRomajisJoin (((src :: tl).drop 1).dropLast) }
        hlast (by rw [ha]; simp) hav rfl hconf
        (fun u hu => hnow u (List.mem_of_mem_filter hu)) hvkept hnoend hallow
        (by dsimp only; rw [if_neg (by rw [hallow]; simp)]) hnext
      refine ⟨(check_key g s c).1 :: rs', A, ?_, ?_, hA1, hA2⟩
      · rw [hrunsplit]
        have hs2 : (check_key g s c).2.1 =
            { s with keys_for_now_node := done ++ [c],
                     now_nodes := s.now_nodes.filter
                       (fun u => u.romajis.any (fun r => (done ++ [c]).isPrefixOf r)),
                     accepting_keys :=
                       if s.allow_n = true then
                         derived_accepting_keys
                           (s.now_nodes.filter
                             (fun u => u.romajis.any (fun r => (done ++ [c]).isPrefixOf r)))
                           (done ++ [c]) ++ ['n']
                       else
                         derived_accepting_keys
                           (s.now_nodes.filter
                             (fun u => u.romajis.any (fun r => (done ++ [c]).isPrefixOf r)))
                           (done ++ [c]),
                     assumed_keys :=
                       r₀.drop (done ++ [c]).length ++
                         firstRomajisJoin (((src :: tl).drop 1).dropLast) } := by
          rw [hck]
          dsimp only
          rw [hstate]
        rw [hs2, hrun']
      · have hkcont : resultKind (check_key g s c).1 = RKind.cont := by
          rw [hck]
          dsimp only
          rw [hstate]
          rcases hj : r₀.drop (done ++ [c]).length ++
              firstRomajisJoin (((src :: tl).drop 1).dropLast) with _ | ⟨x, xs⟩
          · exact absurd hj hAne
          · simp [resultKind, hj]
        rw [List.map_cons, hkcont, hkinds']
        rcases cs' with _ | ⟨x, xs⟩
        · exact absurd rfl hlast
        · simp [List.replicate_succ]

theorem allow_clear_step {g : Graph} {s : KPState} {c : Char} (ks : List Char)
    (hallow : s.allow_n = true)
    (hmemd : c ∈ s.accepting_keys.dropLast)
    (hdne : s.keys_for_now_node ++ [c] ≠ ['n']) :
    runKeys g s (c :: ks) =
      runKeys g { s with allow_n := false,
                         accepting_keys := s.accepting_keys.dropLast } (c :: ks) := by
  have hmem : c ∈ s.accepting_keys := List.mem_of_mem_dropLast hmemd
  have hck : check_key g s c =
      check_key g { s with allow_n := false,
                           accepting_keys := s.accepting_keys.dropLast } c := by
    simp [check_key, hmem, hmemd, hallow, hdne]
  simp [runKeys, hck]

theorem run_alt_start {g : Graph} (hwf : wfGraphB g = true) (hpf : prefixFreeB g = true)
    (a : Str) (prevNode v : PNode) (C : Str) (s : KPState)
    (hane : a ≠ []) (hav : a ∈ v.romajis)
    (hkf : s.keys_for_now_node = []) (hconf : s.confirmed_nodes_keys = C)
    (hnow : ∀ u ∈ s.now_nodes, u ∈ g.succs prevNode) (hvmem : v ∈ s.now_nodes)
    (hnoend : endNode ∉ g.succs prevNode)
    (hacc : s.accepting_keys = if s.allow_n = true
      then derived_accepting_keys s.now_nodes [] ++ ['n']
      else derived_accepting_keys s.now_nodes [])
    (hnal : s.allow_n = true → a.headD ' ' ≠ 'n')
    (hnext : g.succs v = [endNode] ∨ (endNode ∉ g.succs v ∧ g.succs v ≠ [])) :
    ∃ rs A,
      runKeys g s a =
        (rs, { keys_for_now_node := [], confirmed_nodes_keys := C ++ a,
               now_nodes := g.succs v, assumed_keys := A,
               allow_n := decide (nnStr ∈ v.romajis),
               accepting_keys :=
                 if decide (nnStr ∈ v.romajis) = true then
                   derived_accepting_keys (g.succs v) [] ++ ['n']
                 else derived_accepting_keys (g.succs v) [] }) ∧
      rs.map resultKind = List.replicate (a.length - 1) RKind.cont ++
        [if g.succs v = [endNode] then RKind.complete else RKind.cont] ∧
      (g.succs v = [endNode] → A = []) ∧ (g.succs v ≠ [endNode] → A ≠ []) := by
  by_cases hallow : s.allow_n = true
  · rcases a with _ | ⟨c, cs'⟩
    · exact absurd rfl hane
    · have hcne : c ≠ 'n' := by simpa [List.headD_cons] using hnal hallow
      have hmemder : c ∈ derived_accepting_keys s.now_nodes [] := by
        have h := mem_derived_accepting hvmem hav
          (List.isPrefixOf_iff_prefix.mpr List.nil_prefix)
        simpa [List.getD] using h
      have hmemd : c ∈ s.accepting_keys.dropLast := by
        rw [hacc, if_pos hallow, List.dropLast_concat]
        exact hmemder
      have hdne : s.keys_for_now_node ++ [c] ≠ ['n'] := by
        rw [hkf]
        intro hcon
        exact hcne (by injection hcon)
      rw [allow_clear_step cs' hallow hmemd hdne]
      exact run_alt_core hwf hpf (c :: cs') [] prevNode v (c :: cs') C
        { s with allow_n := false, accepting_keys := s.accepting_keys.dropLast }
        (by simp) (by simp) hav hkf hconf hnow hvmem hnoend rfl
        (by dsimp only; rw [hacc, if_pos hallow, List.dropLast_concat]) hnext
  · have hallow' : s.allow_n = false := by
      cases h : s.allow_n
      · rfl
      · exact absurd h hallow
    exact run_alt_core hwf hpf a [] prevNode v a C s hane (by simp) hav hkf hconf
      hnow hvmem hnoend hallow'
      (by rw [hacc, if_neg (by rw [hallow']; simp)]) hnext

theorem run_path {g : Graph} (hwf : wfGraphB g = true) (hpf : prefixFreeB g = true) :
    ∀ (rest : List (PNode × Str)) (prevNode : PNode) (C : Str) (s : KPState),
    rest ≠ [] →
    goodPathB g prevNode rest = true →
    s.keys_for_now_node = [] → s.confirmed_nodes_keys = C →
    s.now_nodes = g.succs prevNode →
    (s.accepting_keys = if s.allow_n = true
      then derived_accepting_keys s.now_nodes [] ++ ['n']
      else derived_accepting_keys s.now_nodes []) →
    (s.allow_n = true → nextAltHead rest ≠ 'n') →
    ∃ rs s_fin, runKeys g s (keysOf rest) = (rs, s_fin) ∧
      rs.map resultKind =
        List.replicate ((keysOf rest).length - 1) RKind.cont ++ [RKind.complete] ∧
      s_fin.confirmed_nodes_keys = C ++ keysOf rest := by
  intro rest
  induction rest with
  | nil => intro prevNode C s hne; exact absurd rfl hne
  | cons hd rest' ih =>
    obtain ⟨v, a⟩ := hd
    intro prevNode C s hne hgp hkf hconf hnow hacc hnal
    rw [goodPathB] at hgp
    rw [Bool.and_eq_true, Bool.and_eq_true, Bool.and_eq_true, Bool.and_eq_true] at hgp
    obtain ⟨⟨⟨⟨hvsucc, hnoend⟩, hamem⟩, hnnreq⟩, hgp'⟩ := hgp
    have hvsucc := of_decide_eq_true hvsucc
    have hnoend : endNode ∉ g.succs prevNode := of_decide_eq_true hnoend
    have hamem : a ∈ v.romajis := of_decide_eq_true hamem
    have hvne : v ≠ endNode := fun hc => hnoend (hc ▸ hvsucc)
    have hnnreq' : nnStr ∈ v.romajis → nextAltHead rest' ≠ 'n' := by
      intro hnn
      rw [Bool.or_eq_true] at hnnreq
      rcases hnnreq with h | h
      · rw [Bool.not_eq_true'] at h
        exact absurd (decide_eq_true hnn) (by rw [h]; simp)
      · exact of_decide_eq_true h
    have hane : a ≠ [] := (wf_good_of_succ hwf hvsucc hvne).2 a hamem
    have hnext : g.succs v = [endNode] ∨ (endNode ∉ g.succs v ∧ g.succs v ≠ []) := by
      cases rest' with
      | nil =>
        rw [goodPathB] at hgp'
        exact Or.inl (of_decide_eq_true hgp')
      | cons hd2 t2 =>
        obtain ⟨v', a'⟩ := hd2
        rw [goodPathB] at hgp'
        rw [Bool.and_eq_true, Bool.and_eq_true, Bool.and_eq_true, Bool.and_eq_true] at hgp'
        refine Or.inr ⟨of_decide_eq_true hgp'.1.1.1.2, ?_⟩
        exact List.ne_nil_of_mem (of_decide_eq_true hgp'.1.1.1.1)
    obtain ⟨rs1, A, hrun1, hkinds1, hA1, hA2⟩ := run_alt_start hwf hpf a prevNode v C s
      hane hamem hkf hconf (by rw [hnow]; exact fun u hu => hu) (by rw [hnow]; exact hvsucc)
      hnoend hacc (fun h => by simpa [nextAltHead] using hnal h) hnext
    have hkeys : keysOf ((v, a) :: rest') = a ++ keysOf rest' := by simp [keysOf]
    cases rest' with
    | nil =>
      rw [goodPathB] at hgp'
      have hfin : g.succs v = [endNode] := of_decide_eq_true hgp'
      refine ⟨rs1,
        { keys_for_now_node := [], confirmed_nodes_keys := C ++ a,
          now_nodes := g.succs v, assumed_keys := A,
          allow_n := decide (nnStr ∈ v.romajis),
          accepting_keys :=
            if decide (nnStr ∈ v.romajis) = true then
              derived_accepting_keys (g.succs v) [] ++ ['n']
            else derived_accepting_keys (g.succs v) [] }, ?_, ?_, ?_⟩
      · rw [show keysOf [(v, a)] = a from by simp [keysOf]]
        exact hrun1
      · rw [hkinds1, if_pos hfin]
        simp [keysOf]
      · rw [show keysOf [(v, a)] = a from by simp [keysOf]]
    | cons hd2 t2 =>
      obtain ⟨v', a'⟩ := hd2
      rw [goodPathB] at hgp'
      rw [Bool.and_eq_true, Bool.and_eq_true, Bool.and_eq_true, Bool.and_eq_true] at hgp'
      have hv'succ : v' ∈ g.succs v := of_decide_eq_true hgp'.1.1.1.1
      have hnendv : endNode ∉ g.succs v := of_decide_eq_true hgp'.1.1.1.2
      have hsvne : g.succs v ≠ [endNode] := by
        intro hc
        exact hnendv (by rw [hc]; exact List.mem_singleton_self _)
      have hv'ne : v' ≠ endNode := fun hc => hnendv (hc ▸ hv'succ)
      have ha'ne : a' ≠ [] :=
        (wf_good_of_succ hwf hv'succ hv'ne).2 a' (of_decide_eq_true hgp'.1.1.2)
      have hgpB : goodPathB g v ((v', a') :: t2) = true := by
        rw [goodPathB]
        rw [Bool.and_eq_true, Bool.and_eq_true, Bool.and_eq_true, Bool.and_eq_true]
        exact hgp'
      obtain ⟨rs2, s_fin, hrun2, hkinds2, hconf2⟩ := ih v (C ++ a)
        { keys_for_now_node := [], confirmed_nodes_keys := C ++ a,
          now_nodes := g.succs v, assumed_keys := A,
          allow_n := decide (nnStr ∈ v.romajis),
          accepting_keys :=
            if decide (nnStr ∈ v.romajis) = true then
              derived_accepting_keys (g.succs v) [] ++ ['n']
            else derived_accepting_keys (g.succs v) [] }
        (by simp) hgpB rfl rfl rfl rfl
        (fun h => hnnreq' (of_decide_eq_true h))
      refine ⟨rs1 ++ rs2, s_fin, ?_, ?_, ?_⟩
      · rw [hkeys, runKeys_append, hrun1]
        dsimp only
        rw [hrun2]
      · rw [List.map_append, hkinds1, hkinds2, if_neg hsvne]
        have hklen : 0 < (keysOf ((v', a') :: t2)).length := by
          have : 0 < a'.length := List.length_pos.mpr ha'ne
          simp [keysOf]
          omega
        have halen : 0 < a.length := List.length_pos.mpr hane
        have e1 : List.replicate (a.length - 1) RKind.cont ++ [RKind.cont] =
            List.replicate a.length RKind.cont := by
          rw [show a.length = a.length - 1 + 1 from by omega, List.replicate_succ']
          simp
        have e2 : (keysOf ((v, a) :: (v', a') :: t2)).length - 1 =
            a.length + ((keysOf ((v', a') :: t2)).length - 1) := by
          rw [hkeys, List.length_append]
          omega
        rw [List.append_assoc, ← List.append_assoc (List.replicate (a.length - 1) RKind.cont),
          e1, ← List.append_assoc, ← List.replicate_add, e2]
      · rw [hconf2, hkeys, List.append_assoc]

/-- C1 (amended): for a word graph whose sibling alternatives are mutually
prefix-free (no alternative of a frontier node is a prefix of a different
alternative of a frontier sibling — which in particular rules out an
`n`/`nn` node), and a Start→End path with one chosen alternative per node
such that the end node is a successor only of the path's last node (and its
sole successor there), and no traversed node carries an `nn` alternative
followed by an alternative beginning with `'n'`: feeding a fresh
`KeyProcessor` the concatenated alternatives one character at a time gets
every keystroke before the last accepted as continuing and the final
keystroke accepted as word-complete (`assumed_keys = ""`, which
`Enemy.process_key` maps to the kill/point branch), with the confirmed text
ending as exactly the typed spelling.  Without those side conditions the
claim fails (see the counterexample). -/
theorem c1_amended_path_typing (g : Graph) (path : List (PNode × Str))
    (hwf : wfGraphB g = true) (hpf : prefixFreeB g = true)
    (hne : path ≠ [])
    (hgp : goodPathB g startNode path = true) :
    ∃ rs s_fin, runKeys g (kpInit g) (keysOf path) = (rs, s_fin) ∧
      rs.map resultKind =
        List.replicate ((keysOf path).length - 1) RKind.cont ++ [RKind.complete] ∧
      s_fin.confirmed_nodes_keys = keysOf path := by
  have hk := kpInit_fields g
  obtain ⟨rs, s_fin, h1, h2, h3⟩ := run_path hwf hpf path startNode [] (kpInit g) hne hgp
    hk.1 hk.2.1 hk.2.2.1
    (by rw [hk.2.2.2.1]
        simp only [Bool.false_eq_true, if_false]
        rw [hk.2.2.2.2, hk.2.2.1])
    (fun h => absurd h (by rw [hk.2.2.2.1]; simp))
  refine ⟨rs, s_fin, h1, h2, ?_⟩
  rw [h3]
  simp

theorem c1_amended_path_typing_witness :
    (wfGraphB graphAI = true ∧ prefixFreeB graphAI = true ∧
      ([(nodeA, ['a']), (nodeI, ['i'])] : List (PNode × Str)) ≠ [] ∧
      goodPathB graphAI startNode [(nodeA, ['a']), (nodeI, ['i'])] = true) ∧
    ∃ rs s_fin,
      runKeys graphAI (kpInit graphAI) (keysOf [(nodeA, ['a']), (nodeI, ['i'])]) =
        (rs, s_fin) ∧
      rs.map resultKind =
        List.replicate ((keysOf [(nodeA, ['a']), (nodeI, ['i'])]).length - 1) RKind.cont ++
          [RKind.complete] ∧
      s_fin.confirmed_nodes_keys = keysOf [(nodeA, ['a']), (nodeI, ['i'])] :=
  ⟨⟨by decide, by decide, by decide, by decide⟩,
    c1_amended_path_typing graphAI [(nodeA, ['a']), (nodeI, ['i'])]
      (by decide) (by decide) (by decide) (by decide)⟩

/-! ## Association-list lemmas for the coordinator -/

theorem alistGet?_cons {α β : Type} [DecidableEq α] (e : α × β) (t : List (α × β)) (k : α) :
    alistGet? (e :: t) k = if e.1 = k then some e.2 else alistGet? t k := by
  by_cases h : e.1 = k
  · rw [if_pos h]
    unfold alistGet?
    rw [List.find?_cons_of_pos _ (by simp [h])]
  · rw [if_neg h]
    unfold alistGet?
    rw [List.find?_cons_of_neg _ (by simp [h])]

theorem alistGet?_set {α β : Type} [DecidableEq α] (d : List (α × β)) (k : α) (v : β)
    (k' : α) :
    alistGet? (alistSet d k v) k' = if k' = k then some v else alistGet? d k' := by
  induction d with
  | nil =>
    rw [alistSet, alistGet?_cons]
    by_cases h : k' = k
    · simp [h]
    · rw [if_neg (fun hc : k = k' => h hc.symm), if_neg h]
  | cons e t ih =>
    rw [alistSet]
    by_cases he : e.1 = k
    · rw [if_pos he, alistGet?_cons, alistGet?_cons]
      by_cases h : k' = k
      · simp [h]
      · simp only [if_neg (fun hc : k = k' => h hc.symm), if_neg h]
        rw [if_neg (fun hc : e.1 = k' => h (hc.symm.trans he))]
    · rw [if_neg he, alistGet?_cons, alistGet?_cons, ih]
      by_cases h : k' = k
      · rw [if_pos h, if_pos h, if_neg (fun hc : e.1 = k' => he (h ▸ hc))]
      · rw [if_neg h, if_neg h]

theorem alistGet?_del {α β : Type} [DecidableEq α] (d : List (α × β)) (k k' : α) :
    alistGet? (alistDel d k) k' = if k' = k then none else alistGet? d k' := by
  induction d with
  | nil =>
    rw [alistDel]
    by_cases h : k' = k <;> simp [h, alistGet?]
  | cons e t ih =>
    rw [alistDel, List.filter_cons]
    by_cases he : e.1 = k
    · rw [if_neg (by simp [he])]
      rw [alistDel] at ih
      rw [ih, alistGet?_cons]
      by_cases h : k' = k
      · simp [h]
      · rw [if_neg h, if_neg h, if_neg (fun hc : e.1 = k' => h (hc.symm.trans he))]
    · rw [if_pos (by simp [he])]
      rw [alistGet?_cons, alistGet?_cons]
      rw [alistDel] at ih
      rw [ih]
      by_cases h : k' = k
      · rw [if_pos h, if_pos h, if_neg (fun hc : e.1 = k' => he (h ▸ hc))]
      · rw [if_neg h, if_neg h]

theorem alistGet?_append {α β : Type} [DecidableEq α] (d d2 : List (α × β)) (k : α) :
    alistGet? (d ++ d2) k =
      match alistGet? d k with
      | some v => some v
      | none => alistGet? d2 k := by
  induction d with
  | nil => simp [alistGet?]
  | cons e t ih =>
    rw [List.cons_append, alistGet?_cons, alistGet?_cons]
    by_cases h : e.1 = k
    · simp [h]
    · simp only [if_neg h]
      exact ih

theorem alistGet?_some_mem {α β : Type} [DecidableEq α] {d : List (α × β)} {k : α} {v : β}
    (h : alistGet? d k = some v) : (k, v) ∈ d := by
  unfold alistGet? at h
  rcases hf : d.find? (fun e => decide (e.1 = k)) with _ | e
  · rw [hf] at h; cases h
  · rw [hf] at h
    have hkey : e.1 = k := by simpa using List.find?_some hf
    have hmem := List.mem_of_find?_eq_some hf
    cases h
    cases e
    cases hkey
    exact hmem

theorem mem_alistSet {α β : Type} [DecidableEq α] {d : List (α × β)} {k : α} {v : β} :
    ∀ e ∈ alistSet d k v, e ∈ d ∨ e = (k, v) := by
  induction d with
  | nil =>
    intro e he
    rw [alistSet] at he
    exact Or.inr (List.mem_singleton.mp he)
  | cons e0 t ih =>
    intro e he
    rw [alistSet] at he
    by_cases h0 : e0.1 = k
    · rw [if_pos h0] at he
      rcases List.mem_cons.mp he with rfl | h
      · exact Or.inr rfl
      · exact Or.inl (List.mem_cons_of_mem _ h)
    · rw [if_neg h0] at he
      rcases List.mem_cons.mp he with rfl | h
      · exact Or.inl (List.mem_cons_self _ _)
      · rcases ih e h with h' | h'
        · exact Or.inl (List.mem_cons_of_mem _ h')
        · exact Or.inr h'

theorem get_extend (d : List (Char × Nat)) (keys : List Char) (eid : Nat) (k : Char) :
    alistGet? (extend_first_keys_dic d keys eid) k =
      if k ∈ keys then some eid else alistGet? d k := by
  induction keys generalizing d with
  | nil => simp [extend_first_keys_dic]
  | cons k0 ks ih =>
    unfold extend_first_keys_dic
    rw [List.foldl_cons]
    have := ih (alistSet d k0 eid)
    unfold extend_first_keys_dic at this
    rw [this, alistGet?_set]
    by_cases hk : k ∈ ks
    · simp [hk]
    · by_cases h0 : k = k0 <;> simp [h0, hk]

theorem get_contract (d : List (Char × Nat)) (keys : List Char) (k : Char) :
    alistGet? (contract_first_keys_dic d keys) k =
      if k ∈ keys then none else alistGet? d k := by
  induction keys generalizing d with
  | nil => simp [contract_first_keys_dic]
  | cons k0 ks ih =>
    unfold contract_first_keys_dic
    rw [List.foldl_cons]
    have := ih (alistDel d k0)
    unfold contract_first_keys_dic at this
    rw [this, alistGet?_del]
    by_cases hk : k ∈ ks
    · simp [hk]
    · by_cases h0 : k = k0 <;> simp [h0, hk]

theorem check_key_accepted {g : Graph} {s : KPState} {k : Char}
    (h : k ∈ s.accepting_keys) :
    ∃ cf ak, (check_key g s k).1 = (some cf, some ak) := by
  unfold check_key
  rw [if_pos h]
  by_cases ha : s.allow_n
  · rw [if_pos ha]
    by_cases hd : s.keys_for_now_node ++ [k] = ['n']
    · rw [if_pos hd]
      exact ⟨_, _, rfl⟩
    · rw [if_neg hd]
      exact ⟨_, _, rfl⟩
  · rw [if_neg ha]
    exact ⟨_, _, rfl⟩

theorem reach_inv {vk : List Char} {raw : List (Char × List Char)} {m : EnemiesM}
    (h : EnemiesReach vk raw m) :
    DicInv m ∧ (∀ e ∈ m.states, e.1 < m.next_id) ∧
      (∀ id, m.inputting_enemy = some id → id < m.next_id) := by
  induction h with
  | init =>
    refine ⟨?_, ?_, ?_⟩
    · intro k eid hk
      simp [enemiesInit, alistGet?] at hk
    · intro e he
      simp [enemiesInit] at he
    · intro id hid
      simp [enemiesInit] at hid
  | @add m hira g hm ih =>
    obtain ⟨ihd, ihb, ihi⟩ := ih
    refine ⟨?_, ?_, ?_⟩
    · intro k eid hk
      have hk' : alistGet? (extend_first_keys_dic m.first_keys_dic
          (kpInit g).accepting_keys m.next_id) k = some eid := hk
      rw [get_extend] at hk'
      by_cases hkin : k ∈ (kpInit g).accepting_keys
      · rw [if_pos hkin] at hk'
        have heid : eid = m.next_id := (Option.some.inj hk').symm
        subst heid
        refine ⟨hira, g, ?_, hkin, ?_⟩
        · show alistGet? (m.states ++ [(m.next_id, (hira, g, kpInit g))]) m.next_id = _
          rw [alistGet?_append]
          have hnone : alistGet? m.states m.next_id = none := by
            rcases hq : alistGet? m.states m.next_id with _ | v
            · rfl
            · exact absurd (ihb _ (alistGet?_some_mem hq)) (lt_irrefl _)
          rw [hnone, alistGet?_cons]
          simp
        · intro hc
          exact absurd (ihi m.next_id hc) (lt_irrefl _)
      · rw [if_neg hkin] at hk'
        obtain ⟨hira', g', hst, hkacc, hninp⟩ := ihd k eid hk'
        refine ⟨hira', g', ?_, hkacc, hninp⟩
        show alistGet? (m.states ++ [(m.next_id, (hira, g, kpInit g))]) eid = _
        rw [alistGet?_append, hst]
    · intro e he
      rcases List.mem_append.mp he with h | h
      · exact Nat.lt_succ_of_lt (ihb e h)
      · rw [List.mem_singleton.mp h]
        exact Nat.lt_succ_self _
    · intro id hid
      exact Nat.lt_succ_of_lt (ihi id hid)
  | @key m k hm ih =>
    obtain ⟨ihd, ihb, ihi⟩ := ih
    rcases hinp : m.inputting_enemy with _ | eid0
    · rcases hdic : alistGet? m.first_keys_dic k with _ | eid
      · have hstep : enemies_process_key m k =
            { m with incorrect_count := m.incorrect_count + 1 } := by
          simp only [enemies_process_key, hinp, hdic]
        rw [hstep]
        exact ⟨fun k' id' hk' => ihd k' id' hk', ihb, fun id hid => ihi id hid⟩
      · obtain ⟨hira, g, hst, hkacc, _⟩ := ihd k eid hdic
        have hstep : enemies_process_key m k =
            { states := alistSet m.states eid (hira, g, (check_key g (kpInit g) k).2.1),
              first_keys_dic :=
                contract_first_keys_dic m.first_keys_dic (kpInit g).accepting_keys,
              inputting_enemy := some eid,
              selecter := selecter_deregulate m.selecter hira,
              next_id := m.next_id,
              correct_count := m.correct_count + 1,
              incorrect_count := m.incorrect_count } := by
          simp only [enemies_process_key, hinp, hdic, hst, process_for_new_inputting_enemy]
        rw [hstep]
        have heidlt : eid < m.next_id := ihb _ (alistGet?_some_mem hst)
        refine ⟨?_, ?_, ?_⟩
        · intro k' id' hk'
          rw [show alistGet? (contract_first_keys_dic m.first_keys_dic
              (kpInit g).accepting_keys) k' =
                if k' ∈ (kpInit g).accepting_keys then none
                else alistGet? m.first_keys_dic k' from get_contract _ _ _] at hk'
          by_cases hk'in : k' ∈ (kpInit g).accepting_keys
          · rw [if_pos hk'in] at hk'
            cases hk'
          · rw [if_neg hk'in] at hk'
            obtain ⟨hira', g', hst', hk'acc, hninp'⟩ := ihd k' id' hk'
            have hne : id' ≠ eid := by
              intro hc
              subst hc
              rw [hst] at hst'
              have h1 := Option.some.inj hst'
              have hg : g = g' := congrArg (fun t => t.2.1) h1
              exact hk'in (by rw [hg]; exact hk'acc)
            refine ⟨hira', g', ?_, hk'acc, ?_⟩
            · show alistGet? (alistSet m.states eid (hira, g, (check_key g (kpInit g) k).2.1))
                id' = _
              rw [alistGet?_set, if_neg hne, hst']
            · intro hc
              exact hne (Option.some.inj hc).symm
        · intro e he
          rcases mem_alistSet e he with h | h
          · exact ihb e h
          · rw [h]
            exact heidlt
        · intro id hid
          have hid' : some eid = some id := hid
          rw [← Option.some.inj hid']
          exact heidlt
    · rcases hst0 : alistGet? m.states eid0 with _ | trip
      · have hstep : enemies_process_key m k = m := by
          simp only [enemies_process_key, hinp, hst0]
        rw [hstep]
        exact ⟨ihd, ihb, ihi⟩
      · obtain ⟨hira, g, kp⟩ := trip
        have heidlt : eid0 < m.next_id := ihb _ (alistGet?_some_mem hst0)
        have hcommon : ∀ k' id', alistGet? m.first_keys_dic k' = some id' →
            ∃ hira' g', alistGet?
                (alistSet m.states eid0 (hira, g, (check_key g kp k).2.1)) id' =
                some (hira', g', kpInit g') ∧
              k' ∈ (kpInit g').accepting_keys ∧ id' ≠ eid0 ∧
              m.inputting_enemy ≠ some id' := by
          intro k' id' hk'
          obtain ⟨hira', g', hst', hk'acc, hninp'⟩ := ihd k' id' hk'
          have hne : id' ≠ eid0 := by
            intro hc
            exact hninp' (by rw [hinp, hc])
          refine ⟨hira', g', ?_, hk'acc, hne, hninp'⟩
          rw [alistGet?_set, if_neg hne, hst']
        have hboundS : ∀ e ∈ alistSet m.states eid0 (hira, g, (check_key g kp k).2.1),
            e.1 < m.next_id := by
          intro e he
          rcases mem_alistSet e he with h | h
          · exact ihb e h
          · rw [h]
            exact heidlt
        rcases hkind : resultKind (check_key g kp k).1 with _ | _ | _
        · have hstep : enemies_process_key m k =
              { m with states := alistSet m.states eid0 (hira, g, (check_key g kp k).2.1),
                       incorrect_count := m.incorrect_count + 1 } := by
            simp only [enemies_process_key, hinp, hst0, hkind]
          rw [hstep]
          refine ⟨?_, hboundS, fun id hid => ihi id hid⟩
          intro k' id' hk'
          obtain ⟨hira', g', hst', hk'acc, hne, hninp'⟩ := hcommon k' id' hk'
          exact ⟨hira', g', hst', hk'acc, hninp'⟩
        · have hstep : enemies_process_key m k =
              { m with states := alistSet m.states eid0 (hira, g, (check_key g kp k).2.1),
                       correct_count := m.correct_count + 1 } := by
            simp only [enemies_process_key, hinp, hst0, hkind]
          rw [hstep]
          refine ⟨?_, hboundS, fun id hid => ihi id hid⟩
          intro k' id' hk'
          obtain ⟨hira', g', hst', hk'acc, hne, hninp'⟩ := hcommon k' id' hk'
          exact ⟨hira', g', hst', hk'acc, hninp'⟩
        · have hstep : enemies_process_key m k =
              { m with
                  states :=
                    alistDel (alistSet m.states eid0 (hira, g, (check_key g kp k).2.1)) eid0,
                  inputting_enemy := none,
                  correct_count := m.correct_count + 1 } := by
            simp only [enemies_process_key, hinp, hst0, hkind, kill_enemy]
            simp
          rw [hstep]
          refine ⟨?_, ?_, ?_⟩
          · intro k' id' hk'
            obtain ⟨hira', g', hst', hk'acc, hne, hninp'⟩ := hcommon k' id' hk'
            refine ⟨hira', g', ?_, hk'acc, by simp⟩
            show alistGet? (alistDel _ eid0) id' = _
            rw [alistGet?_del, if_neg hne, hst']
          · intro e he
            exact hboundS e (List.mem_of_mem_filter he)
          · intro id hid
            cases hid
  | @collide m eid hm ih =>
    obtain ⟨ihd, ihb, ihi⟩ := ih
    by_cases hinp : m.inputting_enemy = some eid
    · have hstep : kill_enemy m eid =
          { m with inputting_enemy := none, states := alistDel m.states eid } := by
        simp only [kill_enemy]
        rw [if_pos hinp]
      rw [hstep]
      refine ⟨?_, ?_, ?_⟩
      · intro k' id' hk'
        obtain ⟨hira', g', hst', hk'acc, hninp'⟩ := ihd k' id' hk'
        have hne : id' ≠ eid := by
          intro hc
          exact hninp' (by rw [hinp, hc])
        refine ⟨hira', g', ?_, hk'acc, by simp⟩
        show alistGet? (alistDel m.states eid) id' = _
        rw [alistGet?_del, if_neg hne, hst']
      · intro e he
        exact ihb e (List.mem_of_mem_filter he)
      · intro id hid
        cases hid
    · rcases hst : alistGet? m.states eid with _ | trip
      · have hstep : kill_enemy m eid = m := by
          simp only [kill_enemy]
          rw [if_neg hinp, hst]
        rw [hstep]
        exact ⟨ihd, ihb, ihi⟩
      · obtain ⟨hira, g2, kp⟩ := trip
        have hstep : kill_enemy m eid =
            { m with first_keys_dic :=
                contract_first_keys_dic m.first_keys_dic kp.accepting_keys,
                     selecter := selecter_deregulate m.selecter hira,
                     states := alistDel m.states eid } := by
          simp only [kill_enemy]
          rw [if_neg hinp, hst]
        rw [hstep]
        refine ⟨?_, ?_, ?_⟩
        · intro k' id' hk'
          rw [show alistGet? (contract_first_keys_dic m.first_keys_dic kp.accepting_keys) k' =
              if k' ∈ kp.accepting_keys then none
              else alistGet? m.first_keys_dic k' from get_contract _ _ _] at hk'
          by_cases hk'in : k' ∈ kp.accepting_keys
          · rw [if_pos hk'in] at hk'
            cases hk'
          · rw [if_neg hk'in] at hk'
            obtain ⟨hira', g', hst', hk'acc, hninp'⟩ := ihd k' id' hk'
            have hne : id' ≠ eid := by
              intro hc
              subst hc
              rw [hst] at hst'
              have h1 := Option.some.inj hst'
              have hkp : kp = kpInit g' := congrArg (fun t => t.2.2) h1
              exact hk'in (by rw [hkp]; exact hk'acc)
            refine ⟨hira', g', ?_, hk'acc, hninp'⟩
            show alistGet? (alistDel m.states eid) id' = _
            rw [alistGet?_del, if_neg hne, hst']
        · intro e he
          exact ihb e (List.mem_of_mem_filter he)
        · intro id hid
          exact ihi id hid

/-- C8: in every reachable coordinator state with no locked enemy, every key
of the unlocked first-keys index maps to a present enemy whose
`KeyProcessor` is still in its initial state and accepts that key, so
forwarding the keystroke as that enemy's first key always succeeds: its
`check_key` returns an accepted `(confirmed, assumed)` pair, never the
rejected `(None, None)`. -/
theorem c8_first_key_forward_succeeds (vk : List Char) (raw : List (Char × List Char))
    (m : EnemiesM) (hreach : EnemiesReach vk raw m)
    (hunlocked : m.inputting_enemy = none)
    (k : Char) (eid : Nat) (hk : alistGet? m.first_keys_dic k = some eid) :
    ∃ hira g, alistGet? m.states eid = some (hira, g, kpInit g) ∧
      k ∈ (kpInit g).accepting_keys ∧
      (∃ cf ak, (check_key g (kpInit g) k).1 = (some cf, some ak)) ∧
      (check_key g (kpInit g) k).1 ≠ (none, none) := by
  obtain ⟨ihd, _, _⟩ := reach_inv hreach
  obtain ⟨hira, g, hst, hkacc, _⟩ := ihd k eid hk
  obtain ⟨cf, ak, hck⟩ := check_key_accepted (g := g) hkacc
  refine ⟨hira, g, hst, hkacc, ⟨cf, ak, hck⟩, ?_⟩
  rw [hck]
  simp

theorem c8_first_key_forward_succeeds_witness :
    ((enemies_add (enemiesInit ['a'] []) 'a' graphAI).inputting_enemy = none ∧
      alistGet? (enemies_add (enemiesInit ['a'] []) 'a' graphAI).first_keys_dic 'a' =
        some 0) ∧
    ∃ hira g,
      alistGet? (enemies_add (enemiesInit ['a'] []) 'a' graphAI).states 0 =
        some (hira, g, kpInit g) ∧
      'a' ∈ (kpInit g).accepting_keys ∧
      (∃ cf ak, (check_key g (kpInit g) 'a').1 = (some cf, some ak)) ∧
      (check_key g (kpInit g) 'a').1 ≠ (none, none) :=
  ⟨⟨by decide, by decide⟩,
    c8_first_key_forward_succeeds ['a'] [] (enemies_add (enemiesInit ['a'] []) 'a' graphAI)
      (EnemiesReach.add 'a' graphAI EnemiesReach.init) (by decide) 'a' 0 (by decide)⟩
